import Mathlib

/-!
# Verification of the GPT generation-cache gateway (src/PythonConnectors/GPT.py)

This file is a shallow embedding, in Lean 4, of the caching / response-normalization
logic of the AWS-Bizzboom GPT Lambda connector, together with theorems settling the
specification claims about it.

Embedding conventions:
* Python strings are Lean `String` / `List Char`; Python ints are `Int`.
* Python floats are modelled exactly as canonical decimal numbers `mant × 10 ^ ex`
  (constructor `PyVal.vfloat`).  This is exact for every literal the code parses or
  prints; IEEE-754 rounding of extreme literals and the scientific-notation switch of
  Python float repr for very large/small magnitudes are not reproduced, and the float
  constants Infinity, -Infinity and NaN accepted by Python json (and by bare float())
  are not representable.  These gaps are unreachable in the claims settled here.
* json.loads is modelled by a recursive-descent parser (fuel-indexed for the nested
  value recursion) that follows the CPython strict scanner: JSON whitespace, the
  number regex -?(0|[1-9][0-9]*)(.[0-9]+)?([eE][+-]?[0-9]+)?, string escapes with
  \uXXXX and surrogate-pair combination (lone surrogates, which CPython keeps, are
  not representable in Lean Char and are rejected), objects/arrays with the document
  required to end after the value.  Duplicate object keys keep the first position and
  the last value, as in a Python dict built by insertion.
* json.dumps is modelled with the default separators and ensure_ascii escaping.
* str.strip / int() / float() are modelled over ASCII (Python additionally strips and
  lowercases some non-ASCII code points; the code paths verified here never depend on
  that).
* The DynamoDB table is a list of records keyed by the "GPT" attribute; the OpenAI
  client is an explicit `Except String String` outcome parameter (error message or
  returned text), and each operation reports how many times it consulted the client.
  Logging statements have no modelled output, but one has control-flow effect and is
  modelled as such: the two writing paths interpolate `message[:200]` into a log
  f-string inside their try blocks, and slicing raises TypeError when the normalized
  message is not a str or a list (int, float, bool, None are not subscriptable; a
  dict rejects the unhashable slice), which the enclosing except turns into a 502
  response with no write.
-/

namespace GPTConn

/-! ## Characters and Python string helpers -/

/-- JSON whitespace (the four characters skipped by the CPython json scanner). -/
def isJsonWs (c : Char) : Bool :=
  c == ' ' || c == '\t' || c == '\n' || c == '\r'

/-- ASCII whitespace stripped by Python str.strip (space, tab, newline, carriage
return, vertical tab, form feed). -/
def isPySpace (c : Char) : Bool :=
  c == ' ' || c == '\t' || c == '\n' || c == '\r' || c == Char.ofNat 11 || c == Char.ofNat 12

/-- Remove trailing Python whitespace. -/
def dropTrailSpace (l : List Char) : List Char :=
  (l.reverse.dropWhile isPySpace).reverse

/-- Python str.strip on a character list. -/
def pyStripL (l : List Char) : List Char :=
  dropTrailSpace (l.dropWhile isPySpace)

/-- Python str.strip. -/
def pyStrip (s : String) : String :=
  String.mk (pyStripL s.toList)

/-- Python str.lower (ASCII letters). -/
def pyLower (s : String) : String :=
  String.mk (s.toList.map Char.toLower)

def isDigitChar (c : Char) : Bool := '0' ≤ c && c ≤ '9'

def digitVal (c : Char) : Nat := c.toNat - '0'.toNat

/-- The two brace characters, named to keep them out of character literals. -/
def lbrace : Char := Char.ofNat 123

def rbrace : Char := Char.ofNat 125

/-! ## The Python value universe

`vfloat mant ex` denotes the real number mant × 10 ^ ex; parsed floats are kept
canonical: mant = 0 forces ex = 0, and a nonzero mant is never divisible by 10. -/

inductive PyVal where
  | vnull
  | vbool (b : Bool)
  | vint (n : Int)
  | vfloat (mant : Int) (ex : Int)
  | vstr (s : String)
  | vlist (elems : List PyVal)
  | vdict (fields : List (String × PyVal))
deriving Repr, Inhabited

/-! ## json.loads -/

/-- Hexadecimal digit value (both letter cases, as accepted by the json scanner). -/
def hexVal (c : Char) : Option Nat :=
  if isDigitChar c then some (digitVal c)
  else if 'a' ≤ c && c ≤ 'f' then some (c.toNat - 87)
  else if 'A' ≤ c && c ≤ 'F' then some (c.toNat - 55)
  else none

/-- Value of the four hex digits of a \uXXXX escape. -/
def hexQuad (a b c d : Char) : Option Nat :=
  match hexVal a, hexVal b, hexVal c, hexVal d with
  | some x, some y, some z, some w => some (((x * 16 + y) * 16 + z) * 16 + w)
  | _, _, _, _ => none

/-- Decoding of a single-character string escape. -/
def escDecode (c : Char) : Option Char :=
  if c == '"' then some '"'
  else if c == 'n' then some '\n'
  else if c == '\\' then some '\\'
  else if c == 't' then some '\t'
  else if c == '/' then some '/'
  else if c == 'r' then some '\r'
  else if c == 'b' then some (Char.ofNat 8)
  else if c == 'f' then some (Char.ofNat 12)
  else none

/-- Four hex digits at the head of the input, with the remainder. -/
def quadAt : List Char → Option (Nat × List Char)
  | a :: b :: c :: d :: rest =>
      match hexQuad a b c d with
      | some n => some (n, rest)
      | none => none
  | _ => none

/-- Completion of a surrogate pair: after a high surrogate n, expect another
backslash-u escape holding a low surrogate, and combine the two scalars. -/
def pairLow (n : Nat) (rest : List Char) : Option (Char × List Char) :=
  match rest with
  | c1 :: c2 :: rest2 =>
      if c1 == '\\' && c2 == 'u' then
        match quadAt rest2 with
        | some (m, rest3) =>
            if 56320 ≤ m ∧ m < 57344 then
              some (Char.ofNat (65536 + (n - 55296) * 1024 + (m - 56320)), rest3)
            else none
        | none => none
      else none
  | _ => none

/-- A \uXXXX escape, positioned after the backslash-u: one scalar, combining a
high surrogate with a following escaped low surrogate (a lone surrogate, which
CPython would keep in the string, has no Lean Char and is rejected). -/
def uniEsc (l : List Char) : Option (Char × List Char) :=
  match quadAt l with
  | none => none
  | some (n, rest) =>
      if 56320 ≤ n ∧ n < 57344 then none
      else if 55296 ≤ n ∧ n < 56320 then pairLow n rest
      else some (Char.ofNat n, rest)

/-- One scanning step inside a string literal: the closing quote, one decoded
character, or a failure. -/
inductive StrStep where
  | close (rest : List Char)
  | chr (c : Char) (rest : List Char)
  | bad

/-- One step of the CPython strict scanstring: closing quote ends the literal, a
backslash starts an escape, raw control characters are rejected, anything else is
itself. -/
def strStep : List Char → StrStep
  | [] => .bad
  | c :: rest =>
      if c == '"' then .close rest
      else if c == '\\' then
        match rest with
        | [] => .bad
        | e :: rest1 =>
            if e == 'u' then
              match uniEsc rest1 with
              | some p => .chr p.1 p.2
              | none => .bad
            else
              match escDecode e with
              | some ch => .chr ch rest1
              | none => .bad
      else if c.toNat < 32 then .bad
      else .chr c rest

/-- Body of a JSON string literal, after the opening quote: the decoded content
and the input remaining after the closing quote.  Every step consumes at least one
character, so the callers' fuel of input length + 1 never runs out. -/
def jStrBody : Nat → List Char → Option (List Char × List Char)
  | 0, _ => none
  | fuel + 1, l =>
      match strStep l with
      | .close rest => some ([], rest)
      | .chr c rest =>
          match jStrBody fuel rest with
          | some (cs, r) => some (c :: cs, r)
          | none => none
      | .bad => none

/-- Maximal run of decimal digits. -/
def takeDigitsJ : List Char → List Char × List Char
  | [] => ([], [])
  | c :: rest =>
      if isDigitChar c then
        let p := takeDigitsJ rest
        (c :: p.1, p.2)
      else ([], c :: rest)

/-- Value of a digit run, most significant first. -/
def digitsNat (ds : List Char) : Nat :=
  ds.foldl (fun a c => a * 10 + digitVal c) 0

/-- Integer part of the json number regex: 0, or a nonzero digit followed by a run
(leading zeros stop the match after the single 0, as in CPython). -/
def jIntPart : List Char → Option (List Char × List Char)
  | [] => none
  | c :: rest =>
      if c == '0' then some (['0'], rest)
      else if isDigitChar c then
        let p := takeDigitsJ rest
        some (c :: p.1, p.2)
      else none

/-- Fractional part: a dot followed by at least one digit, else nothing. -/
def jFracPart : List Char → List Char × List Char
  | '.' :: c :: rest =>
      if isDigitChar c then
        let p := takeDigitsJ rest
        (c :: p.1, p.2)
      else ([], '.' :: c :: rest)
  | l => ([], l)

/-- Exponent part: e or E, an optional sign, and at least one digit; `none` when the
input does not start with a complete exponent. -/
def jExpPart : List Char → Option (Int × List Char)
  | c :: rest =>
      if c == 'e' || c == 'E' then
        match rest with
        | '+' :: d :: r =>
            if isDigitChar d then
              let p := takeDigitsJ r
              some ((digitsNat (d :: p.1) : Int), p.2)
            else none
        | '-' :: d :: r =>
            if isDigitChar d then
              let p := takeDigitsJ r
              some (-(digitsNat (d :: p.1) : Int), p.2)
            else none
        | d :: r =>
            if isDigitChar d then
              let p := takeDigitsJ r
              some ((digitsNat (d :: p.1) : Int), p.2)
            else none
        | [] => none
      else none
  | [] => none

/-- Strip factors of 10 from a nonzero mantissa (fuel-driven so that the kernel
can evaluate it; the mantissa itself is always enough fuel): the reduced mantissa
and the number of factors removed. -/
def canonGo : Nat → Nat → Nat × Nat
  | 0, m => (m, 0)
  | fuel + 1, m =>
      if m ≠ 0 ∧ m % 10 = 0 then
        let p := canonGo fuel (m / 10)
        (p.1, p.2 + 1)
      else (m, 0)

def canonAux (m : Nat) : Nat × Nat := canonGo m m

/-- Build a canonical float from a sign, a decimal mantissa and an exponent. -/
def mkFloat (neg : Bool) (mant : Nat) (ex : Int) : PyVal :=
  if mant = 0 then .vfloat 0 0
  else
    let p := canonAux mant
    .vfloat (if neg then -(p.1 : Int) else (p.1 : Int)) (ex + (p.2 : Int))

/-- Optional leading minus sign of a JSON number. -/
def signSplit (l : List Char) : Bool × List Char :=
  match l with
  | '-' :: r => (true, r)
  | _ => (false, l)

/-- One JSON number token: an int if neither fraction nor exponent is present,
otherwise a float. -/
def parseJNum (l : List Char) : Option (PyVal × List Char) :=
  let sp : Bool × List Char := signSplit l
  match jIntPart sp.2 with
  | none => none
  | some (ids, l2) =>
      let fp := jFracPart l2
      match jExpPart fp.2 with
      | some (e, l4) =>
          some (mkFloat sp.1 (digitsNat (ids ++ fp.1)) (e - (fp.1.length : Int)), l4)
      | none =>
          if fp.1.isEmpty then
            some (.vint (if sp.1 then -(digitsNat ids : Int) else (digitsNat ids : Int)), l2)
          else
            some (mkFloat sp.1 (digitsNat (ids ++ fp.1)) (-(fp.1.length : Int)), fp.2)

/-- Insert a key into an association list as a Python dict would: update the value
in place if the key exists, else append. -/
def dictPut (acc : List (String × PyVal)) (k : String) (v : PyVal) : List (String × PyVal) :=
  match acc with
  | [] => [(k, v)]
  | (k0, v0) :: rest => if k0 == k then (k0, v) :: rest else (k0, v0) :: dictPut rest k v

/-- Build a Python dict from parsed members, in order (first position, last value
for duplicate keys). -/
def buildDict (ps : List (String × PyVal)) : List (String × PyVal) :=
  ps.foldl (fun a p => dictPut a p.1 p.2) []

mutual

/-- One JSON value, with leading whitespace skipped.  The fuel only guards the
recursion into nested values; json_loads supplies input length + 1, which the
nesting (one character consumed per level) can never exhaust. -/
def parseValue : Nat → List Char → Option (PyVal × List Char)
  | 0, _ => none
  | fuel + 1, l =>
      match l.dropWhile isJsonWs with
      | 'n' :: 'u' :: 'l' :: 'l' :: r => some (.vnull, r)
      | 't' :: 'r' :: 'u' :: 'e' :: r => some (.vbool true, r)
      | 'f' :: 'a' :: 'l' :: 's' :: 'e' :: r => some (.vbool false, r)
      | '"' :: r =>
          match jStrBody (r.length + 1) r with
          | some (cs, r2) => some (.vstr (String.mk cs), r2)
          | none => none
      | '[' :: r =>
          match r.dropWhile isJsonWs with
          | ']' :: r2 => some (.vlist [], r2)
          | r2 =>
              match parseItems fuel r2 with
              | some (vs, r3) => some (.vlist vs, r3)
              | none => none
      | c :: r =>
          if c == lbrace then
            match r.dropWhile isJsonWs with
            | [] => none
            | c2 :: r2 =>
                if c2 == rbrace then some (.vdict [], r2)
                else
                  match parseEntries fuel (c2 :: r2) with
                  | some (ps, r3) => some (.vdict (buildDict ps), r3)
                  | none => none
          else if c == '-' || isDigitChar c then parseJNum (c :: r)
          else none
      | [] => none

/-- One or more comma-separated array elements, up to and including the closing
bracket. -/
def parseItems : Nat → List Char → Option (List PyVal × List Char)
  | 0, _ => none
  | fuel + 1, l =>
      match parseValue fuel l with
      | none => none
      | some (v, r) =>
          match r.dropWhile isJsonWs with
          | ',' :: r2 =>
              match parseItems fuel r2 with
              | some (vs, r3) => some (v :: vs, r3)
              | none => none
          | ']' :: r2 => some ([v], r2)
          | _ => none

/-- One or more comma-separated object members, up to and including the closing
brace. -/
def parseEntries : Nat → List Char → Option (List (String × PyVal) × List Char)
  | 0, _ => none
  | fuel + 1, l =>
      match l.dropWhile isJsonWs with
      | '"' :: r =>
          match jStrBody (r.length + 1) r with
          | none => none
          | some (kcs, r1) =>
              match r1.dropWhile isJsonWs with
              | ':' :: r2 =>
                  match parseValue fuel r2 with
                  | none => none
                  | some (v, r3) =>
                      match r3.dropWhile isJsonWs with
                      | ',' :: r4 =>
                          match parseEntries fuel r4 with
                          | some (ps, r5) => some ((String.mk kcs, v) :: ps, r5)
                          | none => none
                      | c :: r4 =>
                          if c == rbrace then some ([(String.mk kcs, v)], r4) else none
                      | [] => none
              | _ => none
      | _ => none

end

/-- json.loads on a character list: one document, then only whitespace. -/
def json_loads (l : List Char) : Option PyVal :=
  match parseValue (l.length + 1) l with
  | some (v, r) => if (r.dropWhile isJsonWs).isEmpty then some v else none
  | none => none

/-! ## json.dumps (default separators, ensure_ascii) -/

/-- Decimal digit characters of a natural number, most significant first
(fuel-driven so that the kernel can evaluate it; n + 1 is always enough fuel). -/
def natDigitsGo : Nat → Nat → List Char
  | 0, _ => []
  | fuel + 1, n =>
      if n < 10 then [Char.ofNat (48 + n)]
      else natDigitsGo fuel (n / 10) ++ [Char.ofNat (48 + n % 10)]

def natDigits (n : Nat) : List Char := natDigitsGo (n + 1) n

/-- Decimal characters of an integer. -/
def intChars (i : Int) : List Char :=
  if i < 0 then '-' :: natDigits i.natAbs else natDigits i.natAbs

def zeros (k : Nat) : List Char := List.replicate k '0'

/-- Plain-decimal rendering of the canonical float mant × 10 ^ ex, as Python float
repr produces for moderate magnitudes (always with a digit on each side of the
dot); the scientific-notation switch of repr for extreme magnitudes is not
reproduced. -/
def floatChars (m ex : Int) : List Char :=
  if m = 0 then ['0', '.', '0']
  else
    let sign : List Char := if m < 0 then ['-'] else []
    let ds := natDigits m.natAbs
    if 0 ≤ ex then sign ++ ds ++ zeros ex.toNat ++ ['.', '0']
    else
      let k := (-ex).toNat
      if k < ds.length then
        sign ++ ds.take (ds.length - k) ++ '.' :: ds.drop (ds.length - k)
      else
        sign ++ '0' :: '.' :: (zeros (k - ds.length) ++ ds)

/-- Lowercase hex digit character. -/
def hexDigitChar (n : Nat) : Char :=
  if n < 10 then Char.ofNat (48 + n) else Char.ofNat (87 + n)

/-- Four lowercase hex digits of n < 65536. -/
def hex4Chars (n : Nat) : List Char :=
  [hexDigitChar (n / 4096 % 16), hexDigitChar (n / 256 % 16),
   hexDigitChar (n / 16 % 16), hexDigitChar (n % 16)]

/-- ensure_ascii escaping of one character (short escapes, \uXXXX for other
controls and all non-ASCII, surrogate pairs beyond the BMP). -/
def escChar (c : Char) : List Char :=
  if c == '\\' then ['\\', '\\']
  else if c == '"' then ['\\', '"']
  else if c == '\n' then ['\\', 'n']
  else if c == '\r' then ['\\', 'r']
  else if c == '\t' then ['\\', 't']
  else if c == Char.ofNat 8 then ['\\', 'b']
  else if c == Char.ofNat 12 then ['\\', 'f']
  else if c.toNat < 32 then '\\' :: 'u' :: hex4Chars c.toNat
  else if c.toNat < 127 then [c]
  else if c.toNat < 65536 then '\\' :: 'u' :: hex4Chars c.toNat
  else
    ('\\' :: 'u' :: hex4Chars (55296 + (c.toNat - 65536) / 1024)) ++
    ('\\' :: 'u' :: hex4Chars (56320 + (c.toNat - 65536) % 1024))

/-- A quoted, escaped JSON string literal. -/
def strChars (s : String) : List Char :=
  '"' :: (s.toList.flatMap escChar ++ ['"'])

mutual

/-- json.dumps of a value, as a character list. -/
def dumpVal : PyVal → List Char
  | .vnull => ['n', 'u', 'l', 'l']
  | .vbool true => ['t', 'r', 'u', 'e']
  | .vbool false => ['f', 'a', 'l', 's', 'e']
  | .vint n => intChars n
  | .vfloat m e => floatChars m e
  | .vstr s => strChars s
  | .vlist xs => '[' :: (dumpItems xs ++ [']'])
  | .vdict ps => lbrace :: (dumpEntries ps ++ [rbrace])

/-- Array elements joined by the default ", " separator. -/
def dumpItems : List PyVal → List Char
  | [] => []
  | [x] => dumpVal x
  | x :: y :: tl => dumpVal x ++ ',' :: ' ' :: dumpItems (y :: tl)

/-- Object members: key, the default ": " separator, value, joined by ", ". -/
def dumpEntries : List (String × PyVal) → List Char
  | [] => []
  | [(k, v)] => strChars k ++ ':' :: ' ' :: dumpVal v
  | (k, v) :: e :: tl => strChars k ++ ':' :: ' ' :: dumpVal v ++ ',' :: ' ' :: dumpEntries (e :: tl)

end

/-- json.dumps. -/
def json_dumps (v : PyVal) : String := String.mk (dumpVal v)

/-! ## Canonical values

Values as Python itself would hold them after a parse: floats canonical, dict keys
distinct.  Values in this class are exactly re-parseable. -/

def floatCanon (m e : Int) : Bool :=
  if m = 0 then e == 0 else decide (m % 10 ≠ 0)

def noDupKeys : List (String × PyVal) → Bool
  | [] => true
  | (k, _) :: tl => !(tl.any (fun p => p.1 == k)) && noDupKeys tl

mutual

def canonB : PyVal → Bool
  | .vfloat m e => floatCanon m e
  | .vlist xs => canonList xs
  | .vdict ps => noDupKeys ps && canonEntries ps
  | _ => true

def canonList : List PyVal → Bool
  | [] => true
  | x :: tl => canonB x && canonList tl

def canonEntries : List (String × PyVal) → Bool
  | [] => true
  | (_, v) :: tl => canonB v && canonEntries tl

end

/-! ## Python numeric constructors int() and float() -/

/-- Digit run with single underscores allowed between digits (Python numeric
literal grouping): value of the whole run, `none` if malformed. -/
def pyDigitsGo : List Char → Nat → Option Nat
  | [], acc => some acc
  | '_' :: c :: rest, acc =>
      if isDigitChar c then pyDigitsGo rest (acc * 10 + digitVal c) else none
  | ['_'], _ => none
  | c :: rest, acc =>
      if isDigitChar c then pyDigitsGo rest (acc * 10 + digitVal c) else none

/-- Value of a full underscore-grouped digit run (nonempty, no leading or trailing
underscore). -/
def pyDigitsVal : List Char → Option Nat
  | [] => none
  | '_' :: _ => none
  | c :: rest => if isDigitChar c then pyDigitsGo rest (digitVal c) else none

/-- Python int(string) on already-stripped ASCII text: optional sign, then an
underscore-grouped digit run (leading zeros allowed). -/
def pyIntOfStr (l : List Char) : Option Int :=
  match l with
  | '+' :: rest => (pyDigitsVal rest).map (fun n => (n : Int))
  | '-' :: rest => (pyDigitsVal rest).map (fun n => -(n : Int))
  | _ => (pyDigitsVal l).map (fun n => (n : Int))

/-- Maximal run of digit-or-underscore characters. -/
def uRun (l : List Char) : List Char × List Char :=
  l.span (fun c => isDigitChar c || c == '_')

/-- Optional exponent suffix of a Python float literal; the whole remaining input
must be consumed. -/
def pyFloatExp (neg : Bool) (mant : Nat) (fracCount : Nat) : List Char → Option PyVal
  | [] => some (mkFloat neg mant (-(fracCount : Int)))
  | c :: r =>
      if c == 'e' || c == 'E' then
        let sp : Bool × List Char := match r with
          | '+' :: t => (false, t)
          | '-' :: t => (true, t)
          | _ => (false, r)
        let p := uRun sp.2
        if p.2.isEmpty then
          match pyDigitsVal p.1 with
          | some ev =>
              some (mkFloat neg mant
                ((if sp.1 then -(ev : Int) else (ev : Int)) - (fracCount : Int)))
          | none => none
        else none
      else none

/-- Python float(string) on already-stripped ASCII text: optional sign, digits with
an optional dot (at least one digit overall), optional exponent.  The inf/infinity/
nan spellings float() also accepts contain no dot, and the dot-guarded caller below
never passes them. -/
def pyFloatOfStr (l : List Char) : Option PyVal :=
  let sp : Bool × List Char := match l with
    | '+' :: r => (false, r)
    | '-' :: r => (true, r)
    | _ => (false, l)
  let p1 := uRun sp.2
  match p1.2 with
  | '.' :: l3 =>
      let p2 := uRun l3
      if p1.1.isEmpty && p2.1.isEmpty then none
      else
        match (if p1.1.isEmpty then some 0 else pyDigitsVal p1.1),
              (if p2.1.isEmpty then some 0 else pyDigitsVal p2.1) with
        | some iv, some fv =>
            let fc := p2.1.countP isDigitChar
            pyFloatExp sp.1 (iv * 10 ^ fc + fv) fc p2.2
        | _, _ => none
  | _ =>
      match pyDigitsVal p1.1 with
      | some iv => pyFloatExp sp.1 iv 0 p1.2
      | none => none

/-! ## normalize_gpt_response (GPT.py lines 231-253) -/

/-- The numeric-coercion tier (lines 245-251): float() if the text contains a dot,
else int(); `none` when the conversion raises ValueError. -/
def coerceNum (raw : List Char) : Option PyVal :=
  if raw.contains '.' then pyFloatOfStr raw
  else (pyIntOfStr raw).map PyVal.vint

/-- Numeric tier followed by the final fallback (line 253): the working text
itself. -/
def numericTier (raw : List Char) : PyVal :=
  match coerceNum raw with
  | some v => v
  | none => .vstr (String.mk raw)

/-- The unwrap loop (lines 235-243): parse as JSON; a string result is stripped and
fed back in; a non-string result is returned; a parse failure breaks to the numeric
tier.  Fuel-indexed; normalize_terminates shows length + 1 fuel never runs out
(each successful unwrap shrinks the text). -/
def unwrapLoop : Nat → List Char → Option PyVal
  | 0, _ => none
  | fuel + 1, raw =>
      match json_loads raw with
      | some (.vstr s) => unwrapLoop fuel (pyStripL s.toList)
      | some v => some v
      | none => some (numericTier raw)

/-- normalize_gpt_response: strip, then the tiered interpretation. -/
def normalize_gpt_response (s : String) : PyVal :=
  let raw := pyStripL s.toList
  (unwrapLoop (raw.length + 1) raw).getD (.vstr (String.mk raw))

/-! ## Specification-side normalizer definitions (for claims C1)

These two definitions follow the words of the specification, to be compared with
normalize_gpt_response above (which is translated from the code). -/

/-- Outcome of the spec's tier-1 loop: a non-string parsed value, or the working
text at the first parse failure together with whether any unwrap had succeeded. -/
inductive Tier1Out where
  | value (v : PyVal)
  | noParse (working : List Char) (unwrapped : Bool)

/-- The spec's tier-1 loop: JSON-parse while the result is a string. -/
def tier1 : Nat → List Char → Bool → Option Tier1Out
  | 0, _, _ => none
  | fuel + 1, raw, ever =>
      match json_loads raw with
      | some (.vstr s) => tier1 fuel (pyStripL s.toList) true
      | some v => some (.value v)
      | none => some (.noParse raw ever)

/-- The claim's normalizer, word for word: a parse failure after at least one
successful unwrap returns the last successfully parsed (stripped) string; numeric
coercion runs only when JSON parsing never succeeded even once. -/
def normalize_spec_claimed (s : String) : PyVal :=
  let raw := pyStripL s.toList
  match tier1 (raw.length + 1) raw false with
  | some (.value v) => v
  | some (.noParse w true) => .vstr (String.mk w)
  | some (.noParse w false) => numericTier w
  | none => .vstr (String.mk raw)

/-- The amended normalizer: on any parse failure the numeric tier runs on the
current working text, whether or not an unwrap had succeeded. -/
def normalize_spec_amended (s : String) : PyVal :=
  let raw := pyStripL s.toList
  match tier1 (raw.length + 1) raw false with
  | some (.value v) => v
  | some (.noParse w _) => numericTier w
  | none => .vstr (String.mk raw)

/-! ## The Lambda handler model (GPT.py lines 23-229)

The DynamoDB table is a list of records; the OpenAI client outcome is a parameter.
respond keeps the JSON body as a value (the source serializes it with json.dumps +
DecimalEncoder); header fields are constant and omitted. -/

/-- A stored record.  createdAt is optional so that pre-existing rows without the
attribute (which list_gpt_entries sorts as 0) are representable. -/
structure Item where
  gpt : String
  response : PyVal
  promo : String
  keyword : String
  prompt : String
  createdAt : Option Int

/-- The table: a list of records, looked up by the GPT key attribute. -/
abbrev Store := List Item

/-- DynamoDB get_item on the GPT key. -/
def storeGet (st : Store) (k : String) : Option Item :=
  st.find? (fun it => it.gpt == k)

/-- DynamoDB put_item: overwrite the record with the same key, else add. -/
def putItem (st : Store) (it : Item) : Store :=
  match st with
  | [] => [it]
  | x :: rest => if x.gpt == it.gpt then it :: rest else x :: putItem rest it

/-- An HTTP response: status code and JSON body (as a value). -/
structure Response where
  statusCode : Nat
  body : PyVal
deriving Repr

/-- The respond helper (lines 198-206), with the body kept structured. -/
def respond (status : Nat) (body : PyVal) : Response :=
  { statusCode := status, body := body }

/-- A record serialized into a response body, attributes in construction order;
createdAt present only when stored. -/
def itemVal (it : Item) : PyVal :=
  .vdict ([("GPT", .vstr it.gpt), ("response", it.response), ("promo", .vstr it.promo),
           ("keyword", .vstr it.keyword), ("prompt", .vstr it.prompt)] ++
    (match it.createdAt with
     | some t => [("createdAt", .vint t)]
     | none => []))

/-- Outcome of a handler call: the response, the table afterwards, and how many
times the OpenAI client was invoked. -/
structure HandlerResult where
  resp : Response
  store : Store
  genCalls : Nat

/-- Whether Python message[:200] succeeds on a normalized value: str and list
slice, while int, float, bool and None are not subscriptable and a dict rejects
the unhashable slice object.  Both writing paths evaluate this slice inside their
try blocks (the log f-strings at lines 103 and 142), so a false here diverts them
to the 502 except clause before put_item. -/
def sliceable : PyVal → Bool
  | .vstr _ => true
  | .vlist _ => true
  | _ => false

/-- str(e) of the TypeError raised by message[:200] on a non-sliceable value. -/
def sliceError : PyVal → String
  | .vnull => "\x27NoneType\x27 object is not subscriptable"
  | .vbool _ => "\x27bool\x27 object is not subscriptable"
  | .vint _ => "\x27int\x27 object is not subscriptable"
  | .vfloat _ _ => "\x27float\x27 object is not subscriptable"
  | .vdict _ => "unhashable type: \x27slice\x27"
  | _ => ""

/-- Query parameters of the GET cache-or-generate route, with the defaults the
code supplies for absent keys. -/
structure GetParams where
  keyword : String := ""
  promo : String := ""
  gptInput : String := ""
  cacheOnly : String := "false"

/-- get_or_generate (lines 60-120).  gen is the OpenAI client outcome; now is the
int(datetime.utcnow().timestamp()) value.  The DynamoDB lookup itself is modelled
as reliable (its try/except to a 500 response is not a claimed path).  After a
successful generation the log f-string at line 103 slices message[:200] still
inside the try: when the normalized message is not sliceable the TypeError is
caught at line 118 and answered as a 502 with nothing written. -/
def get_or_generate (p : GetParams) (store : Store) (gen : Except String String)
    (now : Int) : HandlerResult :=
  let keyword := pyLower (pyStrip p.keyword)
  let promo := pyStrip p.promo
  let gptInput := pyStrip p.gptInput
  let cacheOnly := pyLower p.cacheOnly == "true"
  if keyword = "" then
    ⟨respond 400 (.vdict [("error", .vstr "Missing \x27keyword\x27 in query params.")]), store, 0⟩
  else
    match storeGet store keyword with
    | some item => ⟨respond 200 (itemVal item), store, 0⟩
    | none =>
        if cacheOnly then
          ⟨respond 404 (.vdict [("error", .vstr "No cache entry for this keyword")]), store, 0⟩
        else if gptInput = "" then
          ⟨respond 400 (.vdict [("error", .vstr "Missing \x27gptInput\x27 for OpenAI fallback")]),
            store, 0⟩
        else
          match gen with
          | .error e =>
              ⟨respond 502 (.vdict [("error", .vstr ("OpenAI error: " ++ e)),
                                    ("request", .vstr gptInput)]), store, 1⟩
          | .ok text =>
              let message := normalize_gpt_response (pyStrip text)
              if sliceable message then
                let record : Item :=
                  { gpt := keyword, response := message, promo := promo, keyword := keyword,
                    prompt := gptInput, createdAt := some now }
                ⟨respond 200 (itemVal record), putItem store record, 1⟩
              else
                ⟨respond 502 (.vdict [("error", .vstr ("OpenAI error: " ++ sliceError message)),
                                      ("request", .vstr gptInput)]), store, 1⟩

/-- POST body of the generate-and-store route. -/
structure PostBody where
  keyword : String := ""
  promo : String := ""
  prompt : String := ""

/-- generate_and_store (lines 122-159).  The log f-string at line 142 slices
message[:200] inside the try: a non-sliceable normalized message raises TypeError,
caught at line 157 and answered as a 502 with nothing written. -/
def generate_and_store (b : PostBody) (store : Store) (gen : Except String String)
    (now : Int) : HandlerResult :=
  let keyword := pyLower (pyStrip b.keyword)
  let promo := pyStrip b.promo
  let gptPrompt := pyStrip b.prompt
  if keyword = "" ∨ gptPrompt = "" then
    ⟨respond 400 (.vdict [("error", .vstr "Missing \x27keyword\x27 or \x27prompt\x27 in POST body")]),
      store, 0⟩
  else
    match gen with
    | .error e =>
        ⟨respond 502 (.vdict [("error", .vstr ("OpenAI error: " ++ e)),
                              ("input", .vstr gptPrompt)]), store, 1⟩
    | .ok text =>
        let message := normalize_gpt_response (pyStrip text)
        if sliceable message then
          let record : Item :=
            { gpt := keyword, response := message, promo := promo, keyword := keyword,
              prompt := gptPrompt, createdAt := some now }
          ⟨respond 200 (itemVal record), putItem store record, 1⟩
        else
          ⟨respond 502 (.vdict [("error", .vstr ("OpenAI error: " ++ sliceError message)),
                                ("input", .vstr gptPrompt)]), store, 1⟩

/-- POST body of the chat passthrough. -/
structure ChatBody where
  message : String := ""
  model : String := "gpt-3.5-turbo"

/-- chat_direct (lines 161-186): stateless, no table access; returns the response
and the number of client calls. -/
def chat_direct (b : ChatBody) (gen : Except String String) : Response × Nat :=
  let message := pyStrip b.message
  let model := pyStrip b.model
  if message = "" then
    (respond 400 (.vdict [("error", .vstr "Missing \x27message\x27 in request body")]), 0)
  else
    match gen with
    | .error e =>
        (respond 502 (.vdict [("error", .vstr ("Chat error: " ++ e))]), 1)
    | .ok reply =>
        (respond 200 (.vdict [("model", .vstr model), ("input", .vstr message),
                              ("response", .vstr (pyStrip reply))]), 1)

/-- The POST chat route of lambda_handler (lines 44-47): chat_direct with the
table threaded through untouched (chat_direct performs no table operation). -/
def lambda_post_chat (b : ChatBody) (store : Store) (gen : Except String String) :
    HandlerResult :=
  let r := chat_direct b gen
  ⟨r.1, store, r.2⟩

/-- purge_table (lines 210-218): scan and delete every record, counting them;
the count is returned to its caller. -/
def purge_table (store : Store) : Nat × Store :=
  (store.length, [])

/-- The GET purge branch of lambda_handler (lines 30-37): compare the auth query
parameter with the PURGE_KEY secret; on success call purge_table and answer with a
fixed message (the returned count is dropped), else answer 403 and leave the table
alone. -/
def lambda_purge (auth secret : String) (store : Store) : Response × Store :=
  if auth == secret then
    (respond 200 (.vdict [("message", .vstr "GPT_Transactions purged.")]), (purge_table store).2)
  else
    (respond 403 (.vdict [("error", .vstr "Unauthorized purge attempt.")]), store)

/-- Sort key of list_gpt_entries: createdAt, 0 when absent. -/
def sortKey (it : Item) : Int :=
  (it.createdAt).getD 0

/-- Stable insertion into a descending-sorted list: the new element goes after
every strictly larger key and before the first equal-or-smaller one, so elements
with equal keys keep their original order. -/
def insertDesc (x : Item) : List Item → List Item
  | [] => [x]
  | y :: ys => if sortKey x < sortKey y then y :: insertDesc x ys else x :: y :: ys

/-- The stable descending sort performed by sorted(items, key=..., reverse=True). -/
def sortDesc : List Item → List Item
  | [] => []
  | x :: xs => insertDesc x (sortDesc xs)

/-- list_gpt_entries (lines 220-229): scan, sort by createdAt descending, wrap. -/
def list_gpt_entries (store : Store) : Response :=
  respond 200 (.vdict [("gptEntries", .vlist ((sortDesc store).map itemVal))])

/-- A sample stored record, for concrete instantiations. -/
def demoItem : Item :=
  { gpt := "k", response := .vint 1, promo := "", keyword := "k", prompt := "p",
    createdAt := some 5 }

/-- A second sample record, without a createdAt attribute. -/
def demoItem2 : Item :=
  { gpt := "j", response := .vnull, promo := "", keyword := "j", prompt := "q",
    createdAt := none }

/-- Whether the input cannot extend a preceding number token: empty, or headed by
a character that is neither a digit nor a dot nor an exponent letter.  Every JSON
delimiter (comma, closing bracket or brace, whitespace) qualifies, as does the end
of the document. -/
def numStop : List Char → Bool
  | [] => true
  | c :: _ => !(isDigitChar c || c == '.' || c == 'e' || c == 'E')

/-! # Theorems -/

/-! ## Consumption bounds of the string scanner -/

theorem toList_mk (cs : List Char) : (String.mk cs).toList = cs := rfl

theorem quadAt_le {l : List Char} {p : Nat × List Char} (h : quadAt l = some p) :
    p.2.length ≤ l.length := by
  match l with
  | [] => simp [quadAt] at h
  | [a] => simp [quadAt] at h
  | [a, b] => simp [quadAt] at h
  | [a, b, c] => simp [quadAt] at h
  | a :: b :: c :: d :: rest =>
      simp only [quadAt] at h
      split at h
      · cases h; simp; omega
      · cases h

theorem pairLow_le {n : Nat} {rest : List Char} {p : Char × List Char}
    (h : pairLow n rest = some p) : p.2.length ≤ rest.length := by
  match rest with
  | [] => simp [pairLow] at h
  | [c1] => simp [pairLow] at h
  | c1 :: c2 :: rest2 =>
      simp only [pairLow] at h
      split at h
      · split at h
        · rename_i m rest3 hq2
          have h2 := quadAt_le hq2
          simp only at h2
          generalize Char.ofNat (65536 + (n - 55296) * 1024 + (m - 56320)) = ch at h
          split at h
          · cases h
            simp only [List.length_cons]
            omega
          · cases h
        · cases h
      · cases h

theorem uniEsc_le {l : List Char} {p : Char × List Char} (h : uniEsc l = some p) :
    p.2.length ≤ l.length := by
  simp only [uniEsc] at h
  split at h
  · cases h
  · rename_i n rest hq
    have h1 := quadAt_le hq
    simp only at h1
    split at h
    · cases h
    · split at h
      · have := pairLow_le h
        omega
      · cases h
        exact h1

theorem strStep_chr_len {l : List Char} {c : Char} {rest : List Char}
    (h : strStep l = .chr c rest) : rest.length < l.length := by
  match l with
  | [] => simp [strStep] at h
  | c0 :: r0 =>
      simp only [strStep] at h
      split at h
      · cases h
      · split at h
        · split at h
          · cases h
          · rename_i e rest1
            split at h
            · split at h
              · rename_i p hu
                cases h
                have := uniEsc_le hu
                simp only [List.length_cons]
                omega
              · cases h
            · split at h
              · cases h
                simp only [List.length_cons]
                omega
              · cases h
        · split at h
          · cases h
          · cases h
            simp

theorem strStep_close_len {l : List Char} {rest : List Char}
    (h : strStep l = .close rest) : rest.length < l.length := by
  match l with
  | [] => simp [strStep] at h
  | c0 :: r0 =>
      simp only [strStep] at h
      split at h
      · cases h; simp
      · split at h
        · split at h
          · cases h
          · split at h
            · split at h <;> cases h
            · split at h <;> cases h
        · split at h
          · cases h
          · cases h

theorem jStrBody_len : ∀ (fuel : Nat) (l cs r : List Char),
    jStrBody fuel l = some (cs, r) → cs.length + r.length < l.length := by
  intro fuel
  induction fuel with
  | zero => intro l cs r h; simp [jStrBody] at h
  | succ f ih =>
      intro l cs r h
      simp only [jStrBody] at h
      split at h
      · rename_i rest hcl
        cases h
        have := strStep_close_len hcl
        simp only [List.length_nil]
        omega
      · rename_i c rest hch
        have hlen := strStep_chr_len hch
        split at h
        · rename_i cs0 r0 hrec
          have hih := ih rest cs0 r0 hrec
          cases h
          simp only [List.length_cons]
          omega
        · cases h
      · cases h

/-! ## The unwrap loop shrinks: a parsed string is shorter than its document -/

theorem mkFloat_not_vstr (neg : Bool) (m : Nat) (e : Int) (s : String) :
    mkFloat neg m e ≠ .vstr s := by
  simp only [mkFloat]
  split
  · intro hc; exact PyVal.noConfusion hc
  · intro hc; exact PyVal.noConfusion hc

theorem parseJNum_not_vstr {l : List Char} {v : PyVal} {r : List Char}
    (h : parseJNum l = some (v, r)) : ∀ s, v ≠ .vstr s := by
  intro s
  simp only [parseJNum] at h
  split at h
  · cases h
  · split at h
    · cases h
      exact mkFloat_not_vstr _ _ _ _
    · split at h
      · cases h
        intro hc; exact PyVal.noConfusion hc
      · cases h
        exact mkFloat_not_vstr _ _ _ _

theorem parseValue_vstr : ∀ (fuel : Nat) (l : List Char) (s : String) (r : List Char),
    parseValue fuel l = some (.vstr s, r) → s.toList.length + 2 ≤ l.length := by
  intro fuel l s r h
  match fuel with
  | 0 => simp [parseValue] at h
  | fuel + 1 =>
      have hdw : (l.dropWhile isJsonWs).length ≤ l.length :=
        (List.dropWhile_sublist _).length_le
      simp only [parseValue] at h
      split at h
      · simp at h
      · simp at h
      · simp at h
      · rename_i r1 heq
        split at h
        · rename_i cs r2 hbody
          cases h
          have hlen := jStrBody_len _ _ _ _ hbody
          have : (l.dropWhile isJsonWs).length = r1.length + 1 := by
            rw [heq]; simp
          rw [toList_mk]
          omega
        · cases h
      · rename_i r1 heq
        split at h
        · simp at h
        · split at h
          · simp at h
          · cases h
      · rename_i c r1 heq
        split at h
        · split at h
          · cases h
          · rename_i c2 r2
            split at h
            · simp at h
            · split at h
              · simp at h
              · cases h
        · split at h
          · exact absurd rfl (parseJNum_not_vstr h s)
          · cases h
      · cases h

theorem json_loads_vstr {l : List Char} {s : String}
    (h : json_loads l = some (.vstr s)) : s.toList.length + 2 ≤ l.length := by
  simp only [json_loads] at h
  split at h
  · rename_i v r hpv
    split at h
    · cases h
      exact parseValue_vstr _ _ _ _ hpv
    · cases h
  · cases h

theorem pyStripL_le (l : List Char) : (pyStripL l).length ≤ l.length := by
  unfold pyStripL dropTrailSpace
  have h1 : (l.dropWhile isPySpace).length ≤ l.length :=
    (List.dropWhile_sublist _).length_le
  have h2 := (List.dropWhile_sublist (l := (l.dropWhile isPySpace).reverse) isPySpace).length_le
  simp only [List.length_reverse] at h2 ⊢
  omega

theorem unwrapLoop_total : ∀ (fuel : Nat) (raw : List Char), raw.length < fuel →
    (unwrapLoop fuel raw).isSome := by
  intro fuel
  induction fuel with
  | zero => intro raw h; omega
  | succ f ih =>
      intro raw h
      simp only [unwrapLoop]
      split
      · rename_i s heq
        apply ih
        have h1 := json_loads_vstr heq
        have h2 := pyStripL_le s.toList
        omega
      · simp
      · simp

/-- C3: the unwrap loop of the normalizer terminates on every input: whenever a
pass parses the working text to a string, the next working text (the parsed string,
stripped) is strictly shorter than the current one, and consequently the loop (run
with fuel equal to working-text length + 1, which normalize_gpt_response supplies)
always produces a result rather than exhausting its fuel: normalize is total. -/
theorem claim_C3_normalize_total :
    (∀ (raw : List Char) (s : String), json_loads raw = some (.vstr s) →
        (pyStripL s.toList).length < raw.length) ∧
    (∀ s : String,
        (unwrapLoop ((pyStripL s.toList).length + 1) (pyStripL s.toList)).isSome) := by
  constructor
  · intro raw s h
    have h1 := json_loads_vstr h
    have h2 := pyStripL_le s.toList
    omega
  · intro s
    exact unwrapLoop_total _ _ (Nat.lt_succ_self _)

theorem claim_C3_witness :
    (pyStripL "ab".toList).length < "\"ab\"".toList.length ∧
    (unwrapLoop ((pyStripL "hello world".toList).length + 1)
        (pyStripL "hello world".toList)).isSome :=
  ⟨claim_C3_normalize_total.1 "\"ab\"".toList "ab" (by rfl),
   claim_C3_normalize_total.2 "hello world"⟩

/-! ## C1: the tier structure of the normalizer -/

theorem unwrapLoop_tier1 : ∀ (fuel : Nat) (raw : List Char) (ever : Bool),
    unwrapLoop fuel raw =
      match tier1 fuel raw ever with
      | some (.value v) => some v
      | some (.noParse w _) => some (numericTier w)
      | none => none := by
  intro fuel
  induction fuel with
  | zero => intro raw ever; rfl
  | succ f ih =>
      intro raw ever
      cases heq : json_loads raw with
      | none => simp [unwrapLoop, tier1, heq]
      | some v =>
          cases v <;> (simp [unwrapLoop, tier1, heq]; try exact ih _ true)

/-- C1 counterexample: the four-character input consisting of "07" wrapped in JSON
quotes.  The code unwraps it once to the string 07, the re-parse of 07 fails
(leading zeros are not JSON), and — contrary to the claim, which reserves numeric
coercion for inputs on which JSON parsing never succeeded even once — the numeric
tier still runs: normalize_gpt_response returns the integer 7 where the claimed
algorithm (normalize_spec_claimed, written from the claim) returns the string 07. -/
theorem claim_C1_counterexample :
    normalize_gpt_response "\"07\"" = .vint 7 ∧
    normalize_spec_claimed "\"07\"" = .vstr "07" :=
  ⟨rfl, rfl⟩

/-- C1 amended: normalize follows the spec's tiered algorithm, except that when
the unwrap loop stops on a parse failure, numeric coercion of the current working
text is attempted regardless of whether any unwrap had succeeded (the last parsed
string is returned only via the coercion's own fallback): normalize coincides with
normalize_spec_amended, the spec-side normalizer so amended, on every input. -/
theorem claim_C1_tiers_amended (s : String) :
    normalize_gpt_response s = normalize_spec_amended s := by
  simp only [normalize_gpt_response, normalize_spec_amended]
  rw [unwrapLoop_tier1 _ _ false]
  cases h : tier1 ((pyStripL s.toList).length + 1) (pyStripL s.toList) false with
  | none => rfl
  | some o =>
      cases o with
      | value v => rfl
      | noParse w u => rfl

/-! ## C4, C5, C6: the cache-or-generate orchestration -/

/-- C4: for every non-empty normalized key present in the store, get_or_generate
answers 200 with the stored record exactly as retrieved (no re-validation or
re-normalization), leaves the store unchanged, and performs zero OpenAI calls,
whatever the client outcome parameter would have been. -/
theorem claim_C4_cache_hit (p : GetParams) (store : Store) (gen : Except String String)
    (now : Int) (item : Item)
    (hk : pyLower (pyStrip p.keyword) ≠ "")
    (hfound : storeGet store (pyLower (pyStrip p.keyword)) = some item) :
    get_or_generate p store gen now = ⟨respond 200 (itemVal item), store, 0⟩ := by
  unfold get_or_generate
  rw [if_neg hk, hfound]

theorem claim_C4_witness :
    get_or_generate { keyword := "K" } [demoItem] (.error "boom") 0 =
      ⟨respond 200 (itemVal demoItem), [demoItem], 0⟩ :=
  claim_C4_cache_hit { keyword := "K" } [demoItem] (.error "boom") 0 demoItem
    (by decide) (by rfl)

/-- C5: for every key absent from the store, when the cacheOnly flag is the string
true, get_or_generate answers 404 (no cache entry), performs zero OpenAI calls,
and leaves the store unchanged. -/
theorem claim_C5_cache_only_miss (p : GetParams) (store : Store)
    (gen : Except String String) (now : Int)
    (hk : pyLower (pyStrip p.keyword) ≠ "")
    (hmiss : storeGet store (pyLower (pyStrip p.keyword)) = none)
    (hco : pyLower p.cacheOnly = "true") :
    get_or_generate p store gen now =
      ⟨respond 404 (.vdict [("error", .vstr "No cache entry for this keyword")]), store, 0⟩ := by
  unfold get_or_generate
  rw [if_neg hk, hmiss, hco]
  rfl

theorem claim_C5_witness :
    get_or_generate { keyword := "K", cacheOnly := "True" } [] (.error "boom") 0 =
      ⟨respond 404 (.vdict [("error", .vstr "No cache entry for this keyword")]), [], 0⟩ :=
  claim_C5_cache_only_miss { keyword := "K", cacheOnly := "True" } [] (.error "boom") 0
    (by decide) (by rfl) (by rfl)

/-- C6: whenever the OpenAI client fails — on a cache miss in get_or_generate, or
in generate_and_store — the operation answers 502 with the error and the offending
prompt, and the store is left exactly as it was: failures are never written
(no negative caching). -/
theorem claim_C6_upstream_failure :
    (∀ (p : GetParams) (store : Store) (e : String) (now : Int),
        pyLower (pyStrip p.keyword) ≠ "" →
        storeGet store (pyLower (pyStrip p.keyword)) = none →
        pyLower p.cacheOnly ≠ "true" →
        pyStrip p.gptInput ≠ "" →
        get_or_generate p store (.error e) now =
          ⟨respond 502 (.vdict [("error", .vstr ("OpenAI error: " ++ e)),
                                ("request", .vstr (pyStrip p.gptInput))]), store, 1⟩) ∧
    (∀ (b : PostBody) (store : Store) (e : String) (now : Int),
        pyLower (pyStrip b.keyword) ≠ "" →
        pyStrip b.prompt ≠ "" →
        generate_and_store b store (.error e) now =
          ⟨respond 502 (.vdict [("error", .vstr ("OpenAI error: " ++ e)),
                                ("input", .vstr (pyStrip b.prompt))]), store, 1⟩) := by
  constructor
  · intro p store e now hk hmiss hco hin
    unfold get_or_generate
    rw [if_neg hk, hmiss]
    rw [if_neg (by simpa [beq_iff_eq] using hco), if_neg hin]
  · intro b store e now hk hpr
    unfold generate_and_store
    rw [if_neg (by exact fun hor => hor.elim hk hpr)]

theorem claim_C6_witness :
    get_or_generate { keyword := "K", gptInput := "ask" } [] (.error "down") 7 =
      ⟨respond 502 (.vdict [("error", .vstr "OpenAI error: down"),
                            ("request", .vstr "ask")]), [], 1⟩ ∧
    generate_and_store { keyword := "K", prompt := "ask" } [] (.error "down") 7 =
      ⟨respond 502 (.vdict [("error", .vstr "OpenAI error: down"),
                            ("input", .vstr "ask")]), [], 1⟩ :=
  ⟨claim_C6_upstream_failure.1 { keyword := "K", gptInput := "ask" } [] "down" 7
      (by decide) (by rfl) (by decide) (by decide),
   claim_C6_upstream_failure.2 { keyword := "K", prompt := "ask" } [] "down" 7
      (by decide) (by decide)⟩

/-! ## C7: purge -/

/-- C7 counterexample: purging one-record and two-record stores with the correct
token deletes one and two records respectively (purge_table returns the counts to
lambda_handler), yet the two calls answer the caller with the identical fixed
message body: the count deleted is not returned to the caller, contrary to the
claim. -/
theorem claim_C7_counterexample :
    (purge_table [demoItem]).1 = 1 ∧
    (purge_table [demoItem, demoItem2]).1 = 2 ∧
    (lambda_purge "secret" "secret" [demoItem]).1 =
      (lambda_purge "secret" "secret" [demoItem, demoItem2]).1 ∧
    (lambda_purge "secret" "secret" [demoItem]).1 =
      respond 200 (.vdict [("message", .vstr "GPT_Transactions purged.")]) :=
  ⟨rfl, rfl, rfl, rfl⟩

/-- C7 amended: with a wrong token the purge branch answers 403 and leaves the
store unchanged; with the correct token every entry is deleted and purge_table
computes the count deleted (which the handler logs and drops, answering a fixed
confirmation message instead of the count). -/
theorem claim_C7_purge_amended (auth secret : String) (store : Store) :
    (auth ≠ secret →
        lambda_purge auth secret store =
          (respond 403 (.vdict [("error", .vstr "Unauthorized purge attempt.")]), store)) ∧
    (auth = secret →
        lambda_purge auth secret store =
          (respond 200 (.vdict [("message", .vstr "GPT_Transactions purged.")]), []) ∧
        (purge_table store).1 = store.length) := by
  constructor
  · intro hne
    unfold lambda_purge
    rw [if_neg (by simpa [beq_iff_eq] using hne)]
  · intro heq
    subst heq
    exact ⟨by unfold lambda_purge; rw [if_pos (by simp)]; rfl, rfl⟩

theorem claim_C7_witness :
    lambda_purge "x" "k" [demoItem] =
      (respond 403 (.vdict [("error", .vstr "Unauthorized purge attempt.")]), [demoItem]) ∧
    lambda_purge "k" "k" [demoItem] =
      (respond 200 (.vdict [("message", .vstr "GPT_Transactions purged.")]), []) ∧
    (purge_table [demoItem]).1 = 1 :=
  ⟨(claim_C7_purge_amended "x" "k" [demoItem]).1 (by decide),
   ((claim_C7_purge_amended "k" "k" [demoItem]).2 rfl).1,
   ((claim_C7_purge_amended "k" "k" [demoItem]).2 rfl).2⟩

/-! ## C9: the chat passthrough -/

/-- C9: the chat route never touches the store (the table is returned untouched on
every input and outcome); an empty — after stripping — message answers 400 with
zero client calls; a client failure answers 502. -/
theorem claim_C9_chat_stateless (b : ChatBody) (store : Store)
    (gen : Except String String) :
    (lambda_post_chat b store gen).store = store ∧
    (pyStrip b.message = "" →
        lambda_post_chat b store gen =
          ⟨respond 400 (.vdict [("error", .vstr "Missing \x27message\x27 in request body")]),
            store, 0⟩) ∧
    (∀ e, gen = .error e → pyStrip b.message ≠ "" →
        lambda_post_chat b store gen =
          ⟨respond 502 (.vdict [("error", .vstr ("Chat error: " ++ e))]), store, 1⟩) := by
  refine ⟨rfl, ?_, ?_⟩
  · intro hemp
    unfold lambda_post_chat chat_direct
    rw [if_pos hemp]
  · intro e hgen hne
    subst hgen
    unfold lambda_post_chat chat_direct
    rw [if_neg hne]

theorem claim_C9_witness :
    (lambda_post_chat { message := "hi" } [demoItem] (.error "down")).store = [demoItem] ∧
    lambda_post_chat { message := "  " } [demoItem] (.ok "yо") =
      ⟨respond 400 (.vdict [("error", .vstr "Missing \x27message\x27 in request body")]),
        [demoItem], 0⟩ ∧
    lambda_post_chat { message := "hi" } [demoItem] (.error "down") =
      ⟨respond 502 (.vdict [("error", .vstr "Chat error: down")]), [demoItem], 1⟩ :=
  ⟨(claim_C9_chat_stateless { message := "hi" } [demoItem] (.error "down")).1,
   (claim_C9_chat_stateless { message := "  " } [demoItem] (.ok "yо")).2.1 (by rfl),
   (claim_C9_chat_stateless { message := "hi" } [demoItem] (.error "down")).2.2 "down"
      rfl (by decide)⟩

/-! ## C10: the shape of every written record -/

theorem insertDesc_perm (x : Item) : ∀ l : List Item,
    List.Perm (insertDesc x l) (x :: l) := by
  intro l
  induction l with
  | nil => exact List.Perm.refl _
  | cons y ys ih =>
      simp only [insertDesc]
      split
      · exact ((List.perm_cons y).mpr ih).trans (List.Perm.swap x y ys)
      · exact List.Perm.refl _

theorem mem_insertDesc {z x : Item} {l : List Item} (h : z ∈ insertDesc x l) :
    z = x ∨ z ∈ l := by
  have := (insertDesc_perm x l).mem_iff.mp h
  simpa using this

theorem insertDesc_pairwise (x : Item) : ∀ l : List Item,
    List.Pairwise (fun a b => sortKey b ≤ sortKey a) l →
    List.Pairwise (fun a b => sortKey b ≤ sortKey a) (insertDesc x l) := by
  intro l
  induction l with
  | nil => intro _; simp [insertDesc]
  | cons y ys ih =>
      intro hp
      rw [List.pairwise_cons] at hp
      simp only [insertDesc]
      split
      · rename_i hlt
        rw [List.pairwise_cons]
        refine ⟨?_, ih hp.2⟩
        intro z hz
        rcases mem_insertDesc hz with rfl | hz2
        · omega
        · exact hp.1 z hz2
      · rename_i hge
        rw [List.pairwise_cons]
        refine ⟨?_, List.pairwise_cons.mpr hp⟩
        intro z hz
        rcases List.mem_cons.mp hz with rfl | hz2
        · omega
        · have := hp.1 z hz2
          omega

theorem insertDesc_filter (x : Item) (c : Int) : ∀ l : List Item,
    (insertDesc x l).filter (fun it => sortKey it == c) =
      if sortKey x == c then x :: l.filter (fun it => sortKey it == c)
      else l.filter (fun it => sortKey it == c) := by
  intro l
  induction l with
  | nil =>
      simp only [insertDesc, List.filter_cons, List.filter_nil]
  | cons y ys ih =>
      simp only [insertDesc]
      split
      · rename_i hlt
        rw [List.filter_cons, ih]
        by_cases hxc : (sortKey x == c) = true
        · have hyc : (sortKey y == c) = false := by
            rw [beq_eq_false_iff_ne]
            rw [beq_iff_eq] at hxc
            omega
          simp [hxc, hyc, List.filter_cons]
        · simp only [Bool.not_eq_true] at hxc
          simp [hxc, List.filter_cons]
      · rw [List.filter_cons]

/-- C8: the body of list_gpt_entries is the stable descending sort of the scanned
records by createdAt (absent createdAt counting as 0): the sorted list is a
permutation of the store, pairwise descending in the sort key, and — stability —
the records of any fixed key value appear in exactly their scanned order. -/
theorem claim_C8_list_sorted (store : Store) :
    (list_gpt_entries store).body =
      .vdict [("gptEntries", .vlist ((sortDesc store).map itemVal))] ∧
    List.Perm (sortDesc store) store ∧
    List.Pairwise (fun a b => sortKey b ≤ sortKey a) (sortDesc store) ∧
    (∀ c : Int, (sortDesc store).filter (fun it => sortKey it == c) =
        store.filter (fun it => sortKey it == c)) := by
  refine ⟨rfl, ?_, ?_, ?_⟩
  · induction store with
    | nil => exact List.Perm.refl _
    | cons x xs ih =>
        exact (insertDesc_perm x (sortDesc xs)).trans ((List.perm_cons x).mpr ih)
  · induction store with
    | nil => simp [sortDesc]
    | cons x xs ih => exact insertDesc_pairwise x (sortDesc xs) ih
  · intro c
    induction store with
    | nil => rfl
    | cons x xs ih =>
        simp only [sortDesc]
        rw [insertDesc_filter, ih, List.filter_cons]

theorem claim_C8_witness :
    List.Perm (sortDesc [demoItem2, demoItem]) [demoItem2, demoItem] ∧
    List.Pairwise (fun a b => sortKey b ≤ sortKey a) (sortDesc [demoItem2, demoItem]) :=
  ⟨(claim_C8_list_sorted [demoItem2, demoItem]).2.1,
   (claim_C8_list_sorted [demoItem2, demoItem]).2.2.1⟩

/-! ## C2 groundwork: decimal digits -/

theorem digit_char_spec {k : Nat} (h : k < 10) :
    isDigitChar (Char.ofNat (48 + k)) = true ∧ digitVal (Char.ofNat (48 + k)) = k ∧
    Char.ofNat (48 + k) ≠ '"' ∧ Char.ofNat (48 + k) ≠ '\\' := by
  interval_cases k <;> exact ⟨by decide, by decide, by decide, by decide⟩

theorem natDigitsGo_congr : ∀ (n f1 f2 : Nat), n < f1 → n < f2 →
    natDigitsGo f1 n = natDigitsGo f2 n := by
  intro n
  induction n using Nat.strong_induction_on with
  | _ n ih =>
      intro f1 f2 h1 h2
      match f1, f2 with
      | g1 + 1, g2 + 1 =>
          simp only [natDigitsGo]
          by_cases h : n < 10
          · simp [h]
          · simp only [if_neg h]
            rw [ih (n / 10) (Nat.div_lt_self (by omega) (by omega)) g1 g2
              (by have := Nat.div_lt_self (n := n) (by omega) (by omega : 1 < 10); omega)
              (by have := Nat.div_lt_self (n := n) (by omega) (by omega : 1 < 10); omega)]

theorem natDigits_unfold (n : Nat) :
    natDigits n = (if n < 10 then [] else natDigits (n / 10)) ++ [Char.ofNat (48 + n % 10)] := by
  rw [natDigits, natDigitsGo]
  by_cases h : n < 10
  · simp [h, Nat.mod_eq_of_lt h]
  · simp only [if_neg h]
    rw [natDigits, natDigitsGo_congr (n / 10) n (n / 10 + 1)
      (by have := Nat.div_lt_self (n := n) (by omega) (by omega : 1 < 10); omega) (by omega)]

theorem natDigits_ne_nil (n : Nat) : natDigits n ≠ [] := by
  rw [natDigits_unfold]
  simp

theorem natDigits_all_digits (n : Nat) : ∀ c ∈ natDigits n, isDigitChar c = true := by
  induction n using Nat.strong_induction_on with
  | _ n ih =>
      rw [natDigits_unfold]
      intro c hc
      rcases List.mem_append.mp hc with h1 | h2
      · by_cases hn : n < 10
        · simp [hn] at h1
        · exact ih (n / 10) (Nat.div_lt_self (by omega) (by omega)) c (by simpa [hn] using h1)
      · rw [List.mem_singleton] at h2
        subst h2
        exact (digit_char_spec (Nat.mod_lt _ (by omega))).1

/-- Generalized digit fold: a nonzero accumulator rides along as a high part. -/
theorem foldl_digits_acc (ds : List Char) : ∀ acc : Nat,
    ds.foldl (fun a c => a * 10 + digitVal c) acc =
      acc * 10 ^ ds.length + digitsNat ds := by
  induction ds with
  | nil => intro acc; simp [digitsNat]
  | cons c tl ih =>
      intro acc
      simp only [List.foldl_cons, digitsNat, List.length_cons, Nat.zero_mul, Nat.zero_add]
      rw [ih, ih (digitVal c)]
      ring

theorem digitsNat_append (a b : List Char) :
    digitsNat (a ++ b) = digitsNat a * 10 ^ b.length + digitsNat b := by
  simp only [digitsNat, List.foldl_append]
  rw [foldl_digits_acc]
  rfl

theorem digitsNat_natDigits (n : Nat) : digitsNat (natDigits n) = n := by
  induction n using Nat.strong_induction_on with
  | _ n ih =>
      rw [natDigits_unfold]
      by_cases h : n < 10
      · simp only [if_pos h, List.nil_append, Nat.mod_eq_of_lt h]
        simp [digitsNat, (digit_char_spec h).2.1]
      · simp only [if_neg h]
        rw [digitsNat_append, ih (n / 10) (Nat.div_lt_self (by omega) (by omega))]
        have := (digit_char_spec (k := n % 10) (Nat.mod_lt _ (by omega))).2.1
        simp [digitsNat, this]
        omega

theorem natDigits_head_nonzero {n : Nat} (hn : n ≠ 0) :
    ∃ c t, natDigits n = c :: t ∧ isDigitChar c = true ∧ c ≠ '0' ∧
      isJsonWs c = false ∧ c ≠ '-' := by
  induction n using Nat.strong_induction_on with
  | _ n ih =>
      rw [natDigits_unfold]
      by_cases h : n < 10
      · refine ⟨Char.ofNat (48 + n % 10), [], by simp [h], ?_, ?_, ?_, ?_⟩
        · exact (digit_char_spec (Nat.mod_lt _ (by omega))).1
        · rw [Nat.mod_eq_of_lt h]
          interval_cases n <;> first | exact absurd rfl hn | decide
        · rw [Nat.mod_eq_of_lt h]
          interval_cases n <;> decide
        · rw [Nat.mod_eq_of_lt h]
          interval_cases n <;> decide
      · obtain ⟨c, t, heq, hd, hz, hw, hm⟩ :=
          ih (n / 10) (Nat.div_lt_self (by omega) (by omega)) (by omega)
        exact ⟨c, t ++ [Char.ofNat (48 + n % 10)], by simp [h, heq], hd, hz, hw, hm⟩

theorem zeros_all_digits (k : Nat) : ∀ c ∈ zeros k, isDigitChar c = true := by
  intro c hc
  rw [zeros, List.mem_replicate] at hc
  rw [hc.2]
  decide

theorem digitsNat_zeros_append (k : Nat) (l : List Char) :
    digitsNat (zeros k ++ l) = digitsNat l := by
  induction k with
  | zero => simp [zeros]
  | succ j ih =>
      have : zeros (j + 1) = '0' :: zeros j := by
        simp [zeros, List.replicate_succ]
      rw [this, List.cons_append]
      simp only [digitsNat, List.foldl_cons]
      have : digitVal '0' = 0 := by decide
      simpa [digitsNat, this] using ih

theorem digitsNat_append_zeros (a : List Char) (k : Nat) :
    digitsNat (a ++ zeros k) = digitsNat a * 10 ^ k := by
  have h0 : digitsNat (zeros k) = 0 := by
    simpa using digitsNat_zeros_append k []
  rw [digitsNat_append, h0, zeros, List.length_replicate, Nat.add_zero]

/-! ## C2 groundwork: the number token round trip -/

theorem takeDigitsJ_cons_nondigit {c : Char} {t : List Char} (h : isDigitChar c = false) :
    takeDigitsJ (c :: t) = ([], c :: t) := by
  simp [takeDigitsJ, h]

theorem takeDigitsJ_stop {l : List Char} (h : numStop l = true) :
    takeDigitsJ l = ([], l) := by
  cases l with
  | nil => rfl
  | cons c t =>
      simp only [numStop, Bool.not_eq_true', Bool.or_eq_false_iff] at h
      exact takeDigitsJ_cons_nondigit h.1.1.1

theorem takeDigitsJ_run (ds : List Char) (hds : ∀ c ∈ ds, isDigitChar c = true)
    (rest : List Char) (hrest : takeDigitsJ rest = ([], rest)) :
    takeDigitsJ (ds ++ rest) = (ds, rest) := by
  induction ds with
  | nil => simpa using hrest
  | cons c t ih =>
      have hc : isDigitChar c = true := hds c (by simp)
      have ht := ih (fun x hx => hds x (by simp [hx]))
      simp [takeDigitsJ, hc, ht]

theorem numStop_head {c : Char} {t : List Char} (h : numStop (c :: t) = true) :
    isDigitChar c = false ∧ c ≠ '.' ∧ c ≠ 'e' ∧ c ≠ 'E' := by
  simp only [numStop, Bool.not_eq_true', Bool.or_eq_false_iff, beq_eq_false_iff_ne] at h
  exact ⟨h.1.1.1, h.1.1.2, h.1.2, h.2⟩

theorem jIntPart_natDigits (n : Nat) (rest : List Char)
    (hrest : takeDigitsJ rest = ([], rest)) :
    jIntPart (natDigits n ++ rest) = some (natDigits n, rest) := by
  by_cases hn : n = 0
  · subst hn
    have h0 : natDigits 0 = ['0'] := by decide
    rw [h0]
    simp [jIntPart]
  · obtain ⟨c, t, heq, hd, hz, _, _⟩ := natDigits_head_nonzero hn
    have hds : ∀ x ∈ t, isDigitChar x = true := by
      intro x hx
      exact natDigits_all_digits n x (by rw [heq]; simp [hx])
    have hrun := takeDigitsJ_run t hds rest hrest
    rw [heq]
    simp [jIntPart, beq_eq_false_iff_ne.mpr hz, hd, hrun]

theorem jFracPart_stop {l : List Char} (h : numStop l = true) :
    jFracPart l = ([], l) := by
  cases l with
  | nil => rfl
  | cons c t =>
      obtain ⟨_, hdot, _, _⟩ := numStop_head h
      rw [jFracPart.eq_def]
      split
      · rename_i c2 rest heq
        cases heq
        exact absurd rfl hdot
      · rfl

theorem jExpPart_stop {l : List Char} (h : numStop l = true) :
    jExpPart l = none := by
  cases l with
  | nil => rfl
  | cons c t =>
      obtain ⟨_, _, he, hE⟩ := numStop_head h
      simp [jExpPart, he, hE]

theorem signSplit_not_minus {c : Char} {t : List Char} (h : c ≠ '-') :
    signSplit (c :: t) = (false, c :: t) := by
  rw [signSplit.eq_def]
  split
  · rename_i r heq
    cases heq
    exact absurd rfl h
  · rfl

theorem parseJNum_intChars (n : Int) (rest : List Char) (hrest : numStop rest = true) :
    parseJNum (intChars n ++ rest) = some (.vint n, rest) := by
  have hstop : takeDigitsJ rest = ([], rest) := takeDigitsJ_stop hrest
  by_cases hn : n < 0
  · simp only [intChars, if_pos hn, List.cons_append]
    have hsign : signSplit ('-' :: (natDigits n.natAbs ++ rest)) =
        (true, natDigits n.natAbs ++ rest) := rfl
    have habs : ((n.natAbs : Int)) = -n := by omega
    simp only [parseJNum, hsign, jIntPart_natDigits _ _ hstop,
      jFracPart_stop hrest, jExpPart_stop hrest]
    simp only [digitsNat_natDigits, habs, neg_neg]
    simp
  · simp only [intChars, if_neg hn]
    by_cases hz : n = 0
    · subst hz
      simp only [Int.natAbs_zero]
      have h0 : natDigits 0 = ['0'] := by decide
      rw [h0]
      simp only [List.cons_append, List.nil_append]
      have hsign : signSplit ('0' :: rest) = (false, '0' :: rest) := rfl
      simp only [parseJNum, hsign]
      have hip : jIntPart ('0' :: rest) = some (['0'], rest) := by
        simp [jIntPart]
      simp only [hip]
      rw [jFracPart_stop hrest]
      rw [jExpPart_stop hrest]
      simp [digitsNat]
      decide
    · obtain ⟨c, t, heq, _, _, _, hm⟩ := natDigits_head_nonzero (n := n.natAbs) (by omega)
      have hsign : signSplit (natDigits n.natAbs ++ rest) =
          (false, natDigits n.natAbs ++ rest) := by
        rw [heq, List.cons_append]
        exact signSplit_not_minus hm
      have habs : ((n.natAbs : Int)) = n := by omega
      simp only [parseJNum, hsign, jIntPart_natDigits _ _ hstop,
        jFracPart_stop hrest, jExpPart_stop hrest]
      simp only [digitsNat_natDigits, habs]
      simp

/-! ## C2 groundwork: the float token round trip -/

theorem canonGo_mul {a : Nat} (ha : a ≠ 0) (h10 : a % 10 ≠ 0) :
    ∀ (k fuel : Nat), a * 10 ^ k ≤ fuel → canonGo fuel (a * 10 ^ k) = (a, k) := by
  intro k
  induction k with
  | zero =>
      intro fuel hf
      rw [pow_zero, Nat.mul_one] at hf ⊢
      match fuel with
      | 0 => omega
      | g + 1 =>
          simp only [canonGo]
          rw [if_neg (by omega)]
  | succ j ih =>
      intro fuel hf
      have hx : 0 < a * 10 ^ j := by positivity
      have hval : a * 10 ^ (j + 1) = a * 10 ^ j * 10 := by ring
      match fuel with
      | 0 => omega
      | g + 1 =>
          simp only [canonGo]
          rw [if_pos (by constructor <;> omega)]
          have hdiv : a * 10 ^ (j + 1) / 10 = a * 10 ^ j := by omega
          rw [hdiv, ih g (by omega)]

theorem mkFloat_canon {a : Nat} (ha : a ≠ 0) (h10 : a % 10 ≠ 0)
    (neg : Bool) (k : Nat) (ex : Int) :
    mkFloat neg (a * 10 ^ k) ex =
      .vfloat (if neg then -(a : Int) else (a : Int)) (ex + k) := by
  have hpos : 0 < a * 10 ^ k := by positivity
  rw [mkFloat, if_neg (by omega), canonAux, canonGo_mul ha h10 k _ (le_refl _)]

theorem jIntPart_run {c : Char} {t : List Char} (hc : isDigitChar c = true)
    (hz : c ≠ '0') (ht : ∀ x ∈ t, isDigitChar x = true)
    {rest : List Char} (hrest : takeDigitsJ rest = ([], rest)) :
    jIntPart ((c :: t) ++ rest) = some (c :: t, rest) := by
  simp [jIntPart, beq_eq_false_iff_ne.mpr hz, hc, takeDigitsJ_run t ht rest hrest]

theorem jFracPart_digits {l : List Char} (hne : l ≠ [])
    (hd : ∀ c ∈ l, isDigitChar c = true)
    {rest : List Char} (hrest : takeDigitsJ rest = ([], rest)) :
    jFracPart ('.' :: (l ++ rest)) = (l, rest) := by
  match l with
  | [] => exact absurd rfl hne
  | c :: t =>
      have hc : isDigitChar c = true := hd c (by simp)
      have ht : ∀ x ∈ t, isDigitChar x = true := fun x hx => hd x (by simp [hx])
      simp [jFracPart, hc, takeDigitsJ_run t ht rest hrest]

theorem parseJNum_assemble {l : List Char} {neg : Bool} {body : List Char}
    (hsp : signSplit l = (neg, body))
    {ids l2 : List Char} (hip : jIntPart body = some (ids, l2))
    {fds l3 : List Char} (hfp : jFracPart l2 = (fds, l3))
    (hexp : jExpPart l3 = none) (hne : fds ≠ []) :
    parseJNum l = some (mkFloat neg (digitsNat (ids ++ fds)) (-(fds.length : Int)), l3) := by
  simp only [parseJNum, hsp, hip, hfp, hexp]
  simp [hne]

theorem int_natAbs_mod10 {m : Int} (h : m % 10 ≠ 0) : m.natAbs % 10 ≠ 0 := by
  omega

theorem parseJNum_floatChars (m e : Int) (hc : floatCanon m e = true)
    (rest : List Char) (hrest : numStop rest = true) :
    parseJNum (floatChars m e ++ rest) = some (.vfloat m e, rest) := by
  have hstop : takeDigitsJ rest = ([], rest) := takeDigitsJ_stop hrest
  have hexp : jExpPart rest = none := jExpPart_stop hrest
  by_cases hm : m = 0
  · subst hm
    have he : e = 0 := by
      simpa [floatCanon] using hc
    subst he
    have : floatChars 0 0 = ['0', '.', '0'] := by
      simp [floatChars]
    rw [this]
    have hip : jIntPart ('0' :: ('.' :: '0' :: rest)) = some (['0'], '.' :: '0' :: rest) := by
      simp [jIntPart]
    have hfp : jFracPart ('.' :: '0' :: rest) = (['0'], rest) := by
      simpa using jFracPart_digits (l := ['0']) (by simp) (by simp [isDigitChar]) hstop
    have := parseJNum_assemble (l := '0' :: ('.' :: '0' :: rest))
      (signSplit_not_minus (by decide)) hip hfp hexp (by simp)
    simp only [List.cons_append, List.nil_append] at this ⊢
    rw [this]
    simp [digitsNat, mkFloat, digitVal]
  · have h10 : m % 10 ≠ 0 := by
      simpa [floatCanon, hm] using hc
    have hA : m.natAbs ≠ 0 := by omega
    have hA10 : m.natAbs % 10 ≠ 0 := int_natAbs_mod10 h10
    obtain ⟨c, t, heq, hcd, hcz, _, hcm⟩ := natDigits_head_nonzero hA
    have hds : ∀ x ∈ natDigits m.natAbs, isDigitChar x = true := natDigits_all_digits _
    have htds : ∀ x ∈ t, isDigitChar x = true := by
      intro x hx
      exact hds x (by rw [heq]; simp [hx])
    have hmkF : ∀ (neg : Bool) (k : Nat) (ex : Int),
        mkFloat neg (m.natAbs * 10 ^ k) ex =
          .vfloat (if neg then -(m.natAbs : Int) else (m.natAbs : Int)) (ex + k) :=
      fun neg k ex => mkFloat_canon hA hA10 neg k ex
    by_cases he : 0 ≤ e
    · -- integral float: digits, padding zeros, then a trailing .0
      have hshape : floatChars m e ++ rest =
          (if m < 0 then ['-'] else []) ++
            (c :: ((t ++ zeros e.toNat) ++ ('.' :: ('0' :: rest)))) := by
        simp only [floatChars, if_neg hm, if_pos he, heq]
        simp [List.append_assoc]
      have hip : jIntPart (c :: ((t ++ zeros e.toNat) ++ ('.' :: ('0' :: rest)))) =
          some (c :: (t ++ zeros e.toNat), '.' :: ('0' :: rest)) := by
        have hstop2 : takeDigitsJ ('.' :: ('0' :: rest)) = ([], '.' :: ('0' :: rest)) :=
          takeDigitsJ_cons_nondigit (by decide)
        have := jIntPart_run (t := t ++ zeros e.toNat) hcd hcz
          (by intro x hx
              rcases List.mem_append.mp hx with h1 | h2
              · exact htds x h1
              · exact zeros_all_digits _ x h2)
          hstop2
        simpa [List.append_assoc] using this
      have hfp : jFracPart ('.' :: ('0' :: rest)) = (['0'], rest) := by
        simpa using jFracPart_digits (l := ['0']) (by simp) (by simp [isDigitChar]) hstop
      have hmant : digitsNat ((c :: (t ++ zeros e.toNat)) ++ ['0']) =
          m.natAbs * 10 ^ (e.toNat + 1) := by
        have h1 : (c :: (t ++ zeros e.toNat)) ++ ['0'] =
            natDigits m.natAbs ++ zeros (e.toNat + 1) := by
          rw [heq]
          simp [zeros, List.replicate_succ']
        rw [h1, digitsNat_append_zeros, digitsNat_natDigits]
      by_cases hneg : m < 0
      · rw [hshape, if_pos hneg]
        have hasm := parseJNum_assemble
          (l := '-' :: (c :: ((t ++ zeros e.toNat) ++ ('.' :: ('0' :: rest)))))
          rfl hip hfp hexp (by simp)
        simp only [List.cons_append, List.nil_append, List.append_assoc] at hasm hmant ⊢
        rw [hasm, hmant, hmkF]
        simp only [Option.some.injEq, Prod.mk.injEq, PyVal.vfloat.injEq]
        refine ⟨⟨?_, ?_⟩, trivial⟩
        · rw [if_true]
          omega
        · simp only [List.length_singleton]
          push_cast
          omega
      · rw [hshape, if_neg hneg]
        simp only [List.cons_append, List.nil_append, List.append_assoc] at hmant ⊢
        have hasm := parseJNum_assemble
          (l := c :: ((t ++ zeros e.toNat) ++ ('.' :: ('0' :: rest))))
          (signSplit_not_minus hcm) hip hfp hexp (by simp)
        simp only [List.cons_append, List.nil_append, List.append_assoc] at hasm
        rw [hasm, hmant, hmkF]
        simp only [Option.some.injEq, Prod.mk.injEq, PyVal.vfloat.injEq]
        refine ⟨⟨?_, ?_⟩, trivial⟩
        · rw [if_neg (by decide : ¬(false = true))]
          omega
        · simp only [List.length_singleton]
          push_cast
          omega
    · -- fractional float
      have hepos : e < 0 := by omega
      set k := (-e).toNat with hk
      have hk1 : 1 ≤ k := by omega
      have hke : (k : Int) = -e := by omega
      by_cases hkl : k < (natDigits m.natAbs).length
      · -- the dot goes inside the digits
        set ds := natDigits m.natAbs with hds2
        have hlen : 0 < ds.length - k := by omega
        obtain ⟨j, hj⟩ : ∃ j, ds.length - k = j + 1 := ⟨ds.length - k - 1, by omega⟩
        have htake : ds.take (ds.length - k) = c :: t.take j := by
          rw [hj, ← hds2] at *
          rw [heq]
          simp [List.take_succ_cons]
        have hdrop_ne : ds.drop (ds.length - k) ≠ [] := by
          intro hcon
          have := congrArg List.length hcon
          simp [List.length_drop] at this
          omega
        have hshape : floatChars m e ++ rest =
            (if m < 0 then ['-'] else []) ++
              (c :: (t.take j ++ ('.' :: (ds.drop (ds.length - k) ++ rest)))) := by
          simp only [floatChars, if_neg hm, if_neg (by omega : ¬ 0 ≤ e)]
          rw [← hk, ← hds2, htake]
          simp [if_pos hkl, List.append_assoc]
        have hip : jIntPart (c :: (t.take j ++ ('.' :: (ds.drop (ds.length - k) ++ rest)))) =
            some (c :: t.take j, '.' :: (ds.drop (ds.length - k) ++ rest)) := by
          have hstop2 : takeDigitsJ ('.' :: (ds.drop (ds.length - k) ++ rest)) =
              ([], '.' :: (ds.drop (ds.length - k) ++ rest)) :=
            takeDigitsJ_cons_nondigit (by decide)
          have := jIntPart_run (t := t.take j) hcd hcz
            (fun x hx => htds x (List.take_subset _ _ hx)) hstop2
          simpa [List.append_assoc] using this
        have hfp : jFracPart ('.' :: (ds.drop (ds.length - k) ++ rest)) =
            (ds.drop (ds.length - k), rest) :=
          jFracPart_digits hdrop_ne
            (fun x hx => hds x (List.drop_subset _ _ hx)) hstop
        have hmant : digitsNat ((c :: t.take j) ++ ds.drop (ds.length - k)) = m.natAbs := by
          rw [← htake, List.take_append_drop, hds2, digitsNat_natDigits]
        have hfraclen : ((ds.drop (ds.length - k)).length : Int) = (k : Int) := by
          rw [List.length_drop]
          omega
        have hmk0 : ∀ neg : Bool, mkFloat neg m.natAbs (-(k : Int)) =
            .vfloat (if neg then -(m.natAbs : Int) else (m.natAbs : Int)) (-(k : Int)) := by
          intro neg
          have := hmkF neg 0 (-(k : Int))
          simpa using this
        by_cases hneg : m < 0
        · rw [hshape, if_pos hneg]
          have hasm := parseJNum_assemble
            (l := '-' :: (c :: (t.take j ++ ('.' :: (ds.drop (ds.length - k) ++ rest)))))
            rfl hip hfp hexp hdrop_ne
          simp only [List.cons_append, List.nil_append, List.append_assoc] at hasm hmant ⊢
          rw [hasm, hmant, hfraclen, hmk0]
          simp only [Option.some.injEq, Prod.mk.injEq, PyVal.vfloat.injEq]
          refine ⟨⟨?_, ?_⟩, trivial⟩
          · rw [if_true]
            omega
          · omega
        · rw [hshape, if_neg hneg]
          simp only [List.cons_append, List.nil_append, List.append_assoc] at hmant ⊢
          have hasm := parseJNum_assemble
            (l := c :: (t.take j ++ ('.' :: (ds.drop (ds.length - k) ++ rest))))
            (signSplit_not_minus hcm) hip hfp hexp hdrop_ne
          simp only [List.cons_append, List.nil_append, List.append_assoc] at hasm
          rw [hasm, hmant, hfraclen, hmk0]
          simp only [Option.some.injEq, Prod.mk.injEq, PyVal.vfloat.injEq]
          refine ⟨⟨?_, ?_⟩, trivial⟩
          · rw [if_neg (by decide : ¬(false = true))]
            omega
          · omega
      · -- the value is below one: a 0. then padding zeros then the digits
        set ds := natDigits m.natAbs with hds2
        have hfrac_ne : zeros (k - ds.length) ++ ds ≠ [] := by
          intro hcon
          exact natDigits_ne_nil m.natAbs (hds2 ▸ (List.append_eq_nil.mp hcon).2)
        have hshape : floatChars m e ++ rest =
            (if m < 0 then ['-'] else []) ++
              ('0' :: ('.' :: ((zeros (k - ds.length) ++ ds) ++ rest))) := by
          simp only [floatChars, if_neg hm, if_neg (by omega : ¬ 0 ≤ e)]
          rw [← hk, ← hds2]
          simp [if_neg hkl, List.append_assoc]
        have hip : jIntPart ('0' :: ('.' :: ((zeros (k - ds.length) ++ ds) ++ rest))) =
            some (['0'], '.' :: ((zeros (k - ds.length) ++ ds) ++ rest)) := by
          simp [jIntPart]
        have hfp : jFracPart ('.' :: ((zeros (k - ds.length) ++ ds) ++ rest)) =
            (zeros (k - ds.length) ++ ds, rest) :=
          jFracPart_digits hfrac_ne
            (by intro x hx
                rcases List.mem_append.mp hx with h1 | h2
                · exact zeros_all_digits _ x h1
                · exact hds x (hds2 ▸ h2)) hstop
        have hmant : digitsNat (['0'] ++ (zeros (k - ds.length) ++ ds)) = m.natAbs := by
          have h01 : (['0'] : List Char) = zeros 1 := by simp [zeros]
          rw [h01, digitsNat_zeros_append, digitsNat_zeros_append, hds2,
            digitsNat_natDigits]
        have hfraclen : ((zeros (k - ds.length) ++ ds).length : Int) = (k : Int) := by
          simp [zeros]
          omega
        have hmk0 : ∀ neg : Bool, mkFloat neg m.natAbs (-(k : Int)) =
            .vfloat (if neg then -(m.natAbs : Int) else (m.natAbs : Int)) (-(k : Int)) := by
          intro neg
          have := hmkF neg 0 (-(k : Int))
          simpa using this
        by_cases hneg : m < 0
        · rw [hshape, if_pos hneg]
          have hasm := parseJNum_assemble
            (l := '-' :: ('0' :: ('.' :: ((zeros (k - ds.length) ++ ds) ++ rest))))
            rfl hip hfp hexp hfrac_ne
          simp only [List.cons_append, List.nil_append, List.append_assoc] at hasm hmant ⊢
          rw [hasm, hmant, hfraclen, hmk0]
          simp only [Option.some.injEq, Prod.mk.injEq, PyVal.vfloat.injEq]
          refine ⟨⟨?_, ?_⟩, trivial⟩
          · rw [if_true]
            omega
          · omega
        · rw [hshape, if_neg hneg]
          simp only [List.cons_append, List.nil_append, List.append_assoc] at hmant ⊢
          have hasm := parseJNum_assemble
            (l := '0' :: ('.' :: ((zeros (k - ds.length) ++ ds) ++ rest)))
            (signSplit_not_minus (by decide)) hip hfp hexp hfrac_ne
          simp only [List.cons_append, List.nil_append, List.append_assoc] at hasm
          rw [hasm, hmant, hfraclen, hmk0]
          simp only [Option.some.injEq, Prod.mk.injEq, PyVal.vfloat.injEq]
          refine ⟨⟨?_, ?_⟩, trivial⟩
          · rw [if_neg (by decide : ¬(false = true))]
            omega
          · omega

/-! ## C2 groundwork: the string escape round trip -/

theorem hexVal_hexDigitChar {d : Nat} (h : d < 16) : hexVal (hexDigitChar d) = some d := by
  interval_cases d <;> decide

theorem quadAt_hex4 {n : Nat} (h : n < 65536) (rest : List Char) :
    quadAt (hex4Chars n ++ rest) = some (n, rest) := by
  have h1 := hexVal_hexDigitChar (d := n / 4096 % 16) (Nat.mod_lt _ (by omega))
  have h2 := hexVal_hexDigitChar (d := n / 256 % 16) (Nat.mod_lt _ (by omega))
  have h3 := hexVal_hexDigitChar (d := n / 16 % 16) (Nat.mod_lt _ (by omega))
  have h4 := hexVal_hexDigitChar (d := n % 16) (Nat.mod_lt _ (by omega))
  have hv : n / 4096 % 16 = n / 4096 := by
    rw [Nat.mod_eq_of_lt (by omega)]
  simp only [hex4Chars, List.cons_append, List.nil_append, quadAt, hexQuad,
    h1, h2, h3, h4, Option.some.injEq, Prod.mk.injEq]
  exact ⟨by omega, trivial⟩

theorem toNat_ofNat_valid {n : Nat} (h : n.isValidChar) : (Char.ofNat n).toNat = n := by
  rw [Char.ofNat, dif_pos h]
  simp [Char.ofNatAux, Char.toNat, UInt32.toNat, BitVec.toNat_ofNatLt]

theorem ofNat_toNat_eq (c : Char) : Char.ofNat c.toNat = c := Char.ofNat_toNat c

theorem char_valid_ranges (c : Char) :
    c.toNat < 55296 ∨ (57344 ≤ c.toNat ∧ c.toNat < 1114112) := by
  have h := c.valid
  rcases h with h | h
  · left
    exact h
  · right
    exact ⟨h.1, h.2⟩

theorem uniEsc_high (l tail : List Char) (n : Nat)
    (hq : quadAt l = some (n, tail))
    (h1 : ¬(56320 ≤ n ∧ n < 57344)) (h2 : 55296 ≤ n ∧ n < 56320) :
    uniEsc l = pairLow n tail := by
  simp only [uniEsc, hq, if_neg h1, if_pos h2]

theorem pairLow_cons (n m : Nat) (rest2 tail : List Char)
    (hq : quadAt rest2 = some (m, tail)) (hm : 56320 ≤ m ∧ m < 57344) :
    pairLow n ('\\' :: 'u' :: rest2) =
      some (Char.ofNat (65536 + (n - 55296) * 1024 + (m - 56320)), tail) := by
  simp [pairLow, hq, hm]

theorem strStep_escChar (c : Char) (rest : List Char) :
    strStep (escChar c ++ rest) = .chr c rest := by
  by_cases h1 : c = '\\'
  · subst h1; rfl
  by_cases h2 : c = '"'
  · subst h2; rfl
  by_cases h3 : c = '\n'
  · subst h3; rfl
  by_cases h4 : c = '\r'
  · subst h4; rfl
  by_cases h5 : c = '\t'
  · subst h5; rfl
  by_cases h6 : c = Char.ofNat 8
  · subst h6; rfl
  by_cases h7 : c = Char.ofNat 12
  · subst h7; rfl
  have hesc : escChar c =
      if c.toNat < 32 then '\\' :: 'u' :: hex4Chars c.toNat
      else if c.toNat < 127 then [c]
      else if c.toNat < 65536 then '\\' :: 'u' :: hex4Chars c.toNat
      else
        ('\\' :: 'u' :: hex4Chars (55296 + (c.toNat - 65536) / 1024)) ++
        ('\\' :: 'u' :: hex4Chars (56320 + (c.toNat - 65536) % 1024)) := by
    simp only [escChar, beq_eq_false_iff_ne,
      if_neg (show ¬(c == '\\') = true by simp [h1]),
      if_neg (show ¬(c == '"') = true by simp [h2]),
      if_neg (show ¬(c == '\n') = true by simp [h3]),
      if_neg (show ¬(c == '\r') = true by simp [h4]),
      if_neg (show ¬(c == '\t') = true by simp [h5]),
      if_neg (show ¬(c == Char.ofNat 8) = true by simp [h6]),
      if_neg (show ¬(c == Char.ofNat 12) = true by simp [h7])]
  by_cases hlo : c.toNat < 32
  · rw [hesc, if_pos hlo]
    have hq := quadAt_hex4 (n := c.toNat) (by omega) rest
    have hns1 : ¬(56320 ≤ c.toNat ∧ c.toNat < 57344) := by omega
    have hns2 : ¬(55296 ≤ c.toNat ∧ c.toNat < 56320) := by omega
    simp [strStep, uniEsc, hq, hns1, hns2, ofNat_toNat_eq]
  by_cases hmid : c.toNat < 127
  · rw [hesc, if_neg hlo, if_pos hmid]
    have hq : (c == '"') = false := by simp [h2]
    have hb : (c == '\\') = false := by simp [h1]
    simp [strStep, hq, hb, hlo]
  by_cases hbmp : c.toNat < 65536
  · rw [hesc, if_neg hlo, if_neg hmid, if_pos hbmp]
    have hq := quadAt_hex4 (n := c.toNat) (by omega) rest
    have hval := char_valid_ranges c
    have hns1 : ¬(56320 ≤ c.toNat ∧ c.toNat < 57344) := by omega
    have hns2 : ¬(55296 ≤ c.toNat ∧ c.toNat < 56320) := by omega
    simp [strStep, uniEsc, hq, hns1, hns2, ofNat_toNat_eq]
  · rw [hesc, if_neg hlo, if_neg hmid, if_neg hbmp]
    have hval := char_valid_ranges c
    generalize hn1 : 55296 + (c.toNat - 65536) / 1024 = n1
    generalize hn2 : 56320 + (c.toNat - 65536) % 1024 = n2
    generalize hl1 : hex4Chars n1 = l1
    generalize hl2 : hex4Chars n2 = l2
    have hq1 : quadAt (l1 ++ ('\\' :: 'u' :: (l2 ++ rest))) =
        some (n1, '\\' :: 'u' :: (l2 ++ rest)) := by
      rw [← hl1, ← hl2]
      exact quadAt_hex4 (by omega) _
    have hq2 : quadAt (l2 ++ rest) = some (n2, rest) := by
      rw [← hl2]
      exact quadAt_hex4 (by omega) rest
    have hr1 : ¬(56320 ≤ n1 ∧ n1 < 57344) := by omega
    have hr2 : 55296 ≤ n1 ∧ n1 < 56320 := by omega
    have hr3 : 56320 ≤ n2 ∧ n2 < 57344 := by omega
    have hun : uniEsc (l1 ++ ('\\' :: 'u' :: (l2 ++ rest))) = some (c, rest) := by
      rw [uniEsc_high _ _ _ hq1 hr1 hr2, pairLow_cons _ _ _ _ hq2 hr3]
      have heq : 65536 + (n1 - 55296) * 1024 + (n2 - 56320) = c.toNat := by omega
      rw [heq, ofNat_toNat_eq]
    simp only [List.cons_append, List.append_assoc]
    simp [strStep, hun]

theorem jStrBody_escaped : ∀ (cs : List Char) (fuel : Nat) (rest : List Char),
    cs.length < fuel →
    jStrBody fuel (cs.flatMap escChar ++ '"' :: rest) = some (cs, rest) := by
  intro cs
  induction cs with
  | nil =>
      intro fuel rest hf
      match fuel with
      | f + 1 => simp [jStrBody, strStep]
  | cons c tl ih =>
      intro fuel rest hf
      match fuel with
      | f + 1 =>
          have hstep := strStep_escChar c (tl.flatMap escChar ++ '"' :: rest)
          simp only [List.flatMap_cons, List.append_assoc] at hstep ⊢
          simp only [jStrBody, hstep]
          rw [ih f rest (by simpa using hf)]

theorem flatMap_escChar_len (cs : List Char) :
    cs.length ≤ (cs.flatMap escChar).length := by
  induction cs with
  | nil => simp
  | cons c tl ih =>
      have h1 : 1 ≤ (escChar c).length := by
        simp only [escChar]
        repeat' split
        all_goals simp
      simp only [List.flatMap_cons, List.length_append, List.length_cons]
      omega

/-! ## C2: the full value round trip through json.dumps and json.loads -/

theorem digitChar_classify {c : Char} (h : isDigitChar c = true) :
    isJsonWs c = false ∧ isPySpace c = false ∧ (c == ']') = false := by
  simp only [isDigitChar, Bool.and_eq_true, decide_eq_true_eq] at h
  obtain ⟨h1, h2⟩ := h
  rw [Char.le_def] at h1 h2
  have hn1 : 48 ≤ c.toNat := h1
  have hn2 : c.toNat ≤ 57 := h2
  refine ⟨?_, ?_, ?_⟩
  · simp only [isJsonWs, Bool.or_eq_false_iff, beq_eq_false_iff_ne]
    refine ⟨⟨⟨?_, ?_⟩, ?_⟩, ?_⟩ <;> (intro he; subst he; revert hn1 hn2; decide)
  · simp only [isPySpace, Bool.or_eq_false_iff, beq_eq_false_iff_ne]
    refine ⟨⟨⟨⟨⟨?_, ?_⟩, ?_⟩, ?_⟩, ?_⟩, ?_⟩ <;> (intro he; subst he; revert hn1 hn2; decide)
  · rw [beq_eq_false_iff_ne]
    intro he; subst he; revert hn1 hn2; decide

theorem minusOrDigit_classify {c : Char} (h : c = '-' ∨ isDigitChar c = true) :
    isJsonWs c = false ∧ isPySpace c = false ∧ (c == ']') = false := by
  rcases h with h | h
  · subst h
    exact ⟨by decide, by decide, by decide⟩
  · exact digitChar_classify h

theorem natDigits_head (n : Nat) : ∃ c t, natDigits n = c :: t ∧ isDigitChar c = true := by
  cases hd : natDigits n with
  | nil => exact absurd hd (natDigits_ne_nil n)
  | cons c t => exact ⟨c, t, rfl, natDigits_all_digits n c (by rw [hd]; simp)⟩

theorem intChars_head (n : Int) :
    ∃ c t, intChars n = c :: t ∧ (c = '-' ∨ isDigitChar c = true) := by
  obtain ⟨c, t, hct, hd⟩ := natDigits_head n.natAbs
  by_cases hn : n < 0
  · exact ⟨'-', natDigits n.natAbs, by simp [intChars, hn], Or.inl rfl⟩
  · exact ⟨c, t, by simp [intChars, hn, hct], Or.inr hd⟩

theorem floatChars_head (m e : Int) :
    ∃ c t, floatChars m e = c :: t ∧ (c = '-' ∨ isDigitChar c = true) := by
  by_cases hm : m = 0
  · exact ⟨'0', ['.', '0'], by simp [floatChars, hm], Or.inr (by decide)⟩
  · obtain ⟨c0, t0, hct, hd⟩ := natDigits_head m.natAbs
    simp only [floatChars, if_neg hm]
    by_cases hneg : m < 0
    · simp only [if_pos hneg]
      split
      · exact ⟨'-', _, rfl, Or.inl rfl⟩
      · split
        · exact ⟨'-', _, rfl, Or.inl rfl⟩
        · exact ⟨'-', _, rfl, Or.inl rfl⟩
    · simp only [if_neg hneg]
      split
      · refine ⟨c0, t0 ++ (zeros e.toNat ++ ['.', '0']), ?_, Or.inr hd⟩
        rw [hct]
        simp
      · rename_i hex
        split
        · rename_i hkl
          obtain ⟨j, hjj⟩ : ∃ j, (natDigits m.natAbs).length - (-e).toNat = j + 1 := by
            rw [hct] at hkl
            simp only [List.length_cons] at hkl
            exact ⟨(natDigits m.natAbs).length - (-e).toNat - 1, by rw [hct]; simp; omega⟩
          rw [hjj, hct, List.take_succ_cons, List.drop_succ_cons]
          refine ⟨c0, List.take j t0 ++ '.' :: List.drop j t0, ?_, Or.inr hd⟩
          simp
        · refine ⟨'0', '.' :: (zeros ((-e).toNat - (natDigits m.natAbs).length) ++
            natDigits m.natAbs), ?_, Or.inr (by decide)⟩
          simp

theorem dumpVal_head (v : PyVal) :
    ∃ c t, dumpVal v = c :: t ∧ isJsonWs c = false ∧ isPySpace c = false ∧
      (c == ']') = false := by
  cases v with
  | vnull => exact ⟨'n', _, rfl, by decide, by decide, by decide⟩
  | vbool b =>
      cases b
      · exact ⟨'f', _, rfl, by decide, by decide, by decide⟩
      · exact ⟨'t', _, rfl, by decide, by decide, by decide⟩
  | vint n =>
      obtain ⟨c, t, hct, hc⟩ := intChars_head n
      obtain ⟨h1, h2, h3⟩ := minusOrDigit_classify hc
      exact ⟨c, t, by simp [dumpVal, hct], h1, h2, h3⟩
  | vfloat m e =>
      obtain ⟨c, t, hct, hc⟩ := floatChars_head m e
      obtain ⟨h1, h2, h3⟩ := minusOrDigit_classify hc
      exact ⟨c, t, by simp [dumpVal, hct], h1, h2, h3⟩
  | vstr s => exact ⟨'"', _, rfl, by decide, by decide, by decide⟩
  | vlist xs => exact ⟨'[', _, rfl, by decide, by decide, by decide⟩
  | vdict ps => exact ⟨lbrace, _, rfl, by decide, by decide, by decide⟩

theorem getLast?_mem_list : ∀ (l : List Char) (c : Char), l.getLast? = some c → c ∈ l := by
  intro l
  induction l with
  | nil => intro c h; simp at h
  | cons a t ih =>
      intro c h
      cases t with
      | nil =>
          simp at h
          simp [h]
      | cons b t2 =>
          rw [List.getLast?_cons_cons] at h
          exact List.mem_cons_of_mem _ (ih c h)

theorem natDigits_last (n : Nat) :
    ∃ c, (natDigits n).getLast? = some c ∧ isDigitChar c = true := by
  obtain ⟨c, hc⟩ : ∃ c, (natDigits n).getLast? = some c := by
    cases hd : (natDigits n).getLast? with
    | none =>
        exfalso
        apply natDigits_ne_nil n
        cases hl : natDigits n with
        | nil => rfl
        | cons a t => rw [hl] at hd; simp at hd
    | some c => exact ⟨c, rfl⟩
  exact ⟨c, hc, natDigits_all_digits n c (getLast?_mem_list _ c hc)⟩

theorem digitChar_not_pyspace {c : Char} (h : isDigitChar c = true) : isPySpace c = false :=
  (digitChar_classify h).2.1

theorem dumpVal_last (v : PyVal) :
    ∃ c, (dumpVal v).getLast? = some c ∧ isPySpace c = false := by
  cases v with
  | vnull => exact ⟨'l', by decide, by decide⟩
  | vbool b =>
      cases b
      · exact ⟨'e', by decide, by decide⟩
      · exact ⟨'e', by decide, by decide⟩
  | vstr s =>
      refine ⟨'"', ?_, by decide⟩
      show (('"' :: s.toList.flatMap escChar) ++ ['"']).getLast? = some '"'
      exact List.getLast?_concat _
  | vlist xs =>
      refine ⟨']', ?_, by decide⟩
      show (('[' :: dumpItems xs) ++ [']']).getLast? = some ']'
      exact List.getLast?_concat _
  | vdict ps =>
      refine ⟨rbrace, ?_, by decide⟩
      show ((lbrace :: dumpEntries ps) ++ [rbrace]).getLast? = some rbrace
      exact List.getLast?_concat _
  | vint n =>
      obtain ⟨c, hc, hd⟩ := natDigits_last n.natAbs
      refine ⟨c, ?_, digitChar_not_pyspace hd⟩
      simp only [dumpVal, intChars]
      split
      · rw [show ('-' :: natDigits n.natAbs : List Char) = ['-'] ++ natDigits n.natAbs by rfl,
          List.getLast?_append, hc]
        rfl
      · exact hc
  | vfloat m e =>
      simp only [dumpVal, floatChars]
      split
      · exact ⟨'0', by decide, by decide⟩
      · rename_i hm
        split
        · refine ⟨'0', ?_, by decide⟩
          rw [show ((if m < 0 then ['-'] else []) ++ natDigits m.natAbs ++
                zeros e.toNat ++ ['.', '0'] : List Char) =
              ((if m < 0 then ['-'] else []) ++ natDigits m.natAbs ++
                zeros e.toNat ++ ['.']) ++ ['0'] by simp]
          exact List.getLast?_concat _
        · split
          · rename_i hkl
            have hdne : (natDigits m.natAbs).drop
                ((natDigits m.natAbs).length - (-e).toNat) ≠ [] := by
              intro hcon
              have := congrArg List.length hcon
              simp only [List.length_drop, List.length_nil] at this
              omega
            obtain ⟨c, hc⟩ : ∃ c, ((natDigits m.natAbs).drop
                ((natDigits m.natAbs).length - (-e).toNat)).getLast? = some c := by
              cases hd2 : ((natDigits m.natAbs).drop
                  ((natDigits m.natAbs).length - (-e).toNat)).getLast? with
              | none =>
                  exfalso
                  apply hdne
                  cases hl : (natDigits m.natAbs).drop
                      ((natDigits m.natAbs).length - (-e).toNat) with
                  | nil => rfl
                  | cons a t => rw [hl] at hd2; simp at hd2
              | some c => exact ⟨c, rfl⟩
            have hdig : isDigitChar c = true :=
              natDigits_all_digits m.natAbs c
                (List.drop_subset _ _ (getLast?_mem_list _ c hc))
            refine ⟨c, ?_, digitChar_not_pyspace hdig⟩
            have h2 : (('.' : Char) :: (natDigits m.natAbs).drop
                ((natDigits m.natAbs).length - (-e).toNat)).getLast? = some c := by
              rw [show (('.' : Char) :: (natDigits m.natAbs).drop
                    ((natDigits m.natAbs).length - (-e).toNat)) =
                  ['.'] ++ (natDigits m.natAbs).drop
                    ((natDigits m.natAbs).length - (-e).toNat) by rfl,
                List.getLast?_append, hc]
              rfl
            have h3 : ((natDigits m.natAbs).take ((natDigits m.natAbs).length - (-e).toNat) ++
                ('.' :: (natDigits m.natAbs).drop
                  ((natDigits m.natAbs).length - (-e).toNat))).getLast? = some c := by
              rw [List.getLast?_append, h2]
              rfl
            rw [List.append_assoc, List.getLast?_append, h3]
            rfl
          · obtain ⟨c, hc, hdig⟩ := natDigits_last m.natAbs
            refine ⟨c, ?_, digitChar_not_pyspace hdig⟩
            have h2 : (('0' : Char) :: '.' ::
                (zeros ((-e).toNat - (natDigits m.natAbs).length) ++
                  natDigits m.natAbs)).getLast? = some c := by
              rw [show (('0' : Char) :: '.' ::
                    (zeros ((-e).toNat - (natDigits m.natAbs).length) ++
                      natDigits m.natAbs)) =
                  (('0' : Char) :: '.' ::
                    zeros ((-e).toNat - (natDigits m.natAbs).length)) ++
                      natDigits m.natAbs by simp,
                List.getLast?_append, hc]
              rfl
            rw [List.getLast?_append, h2]
            rfl

theorem pyStripL_dumpVal (v : PyVal) : pyStripL (dumpVal v) = dumpVal v := by
  obtain ⟨c, t, hct, _, hps, _⟩ := dumpVal_head v
  obtain ⟨d, hd, hdps⟩ := dumpVal_last v
  rw [pyStripL, hct, List.dropWhile_cons_of_neg (by simp [hps]), ← hct, dropTrailSpace]
  have hrev : (dumpVal v).reverse.head? = some d := by
    rw [List.head?_reverse]
    exact hd
  cases hr : (dumpVal v).reverse with
  | nil => rw [hr] at hrev; simp at hrev
  | cons a as =>
      rw [hr] at hrev
      simp only [List.head?_cons, Option.some.injEq] at hrev
      subst hrev
      rw [List.dropWhile_cons_of_neg (by simp [hdps]), ← hr, List.reverse_reverse]

theorem parseValue_ws (f : Nat) {c : Char} (h : isJsonWs c = true) (l : List Char) :
    parseValue f (c :: l) = parseValue f l := by
  match f with
  | 0 => rfl
  | g + 1 => simp only [parseValue, List.dropWhile_cons_of_pos h]

theorem parseItems_ws (f : Nat) {c : Char} (h : isJsonWs c = true) (l : List Char) :
    parseItems f (c :: l) = parseItems f l := by
  match f with
  | 0 => rfl
  | g + 1 => simp only [parseItems, parseValue_ws g h l]

theorem parseEntries_ws (f : Nat) {c : Char} (h : isJsonWs c = true) (l : List Char) :
    parseEntries f (c :: l) = parseEntries f l := by
  match f with
  | 0 => rfl
  | g + 1 => simp only [parseEntries, List.dropWhile_cons_of_pos h]

theorem parseValue_strChars (f : Nat) (s : String) (rest : List Char) :
    parseValue (f+1) (strChars s ++ rest) = some (.vstr s, rest) := by
  have hshape : strChars s ++ rest =
      '"' :: (s.toList.flatMap escChar ++ ('"' :: rest)) := by
    simp [strChars]
  rw [hshape]
  have hstep : parseValue (f+1) ('"' :: (s.toList.flatMap escChar ++ ('"' :: rest))) =
      (match jStrBody ((s.toList.flatMap escChar ++ ('"' :: rest)).length + 1)
          (s.toList.flatMap escChar ++ ('"' :: rest)) with
       | some (cs, r2) => some (.vstr (String.mk cs), r2)
       | none => none) := rfl
  rw [hstep, jStrBody_escaped s.toList _ rest
    (by have := flatMap_escChar_len s.toList; simp only [List.length_append]; omega)]
  rfl

theorem parseValue_listStep (f : Nat) {c : Char} (r : List Char)
    (hws : isJsonWs c = false) (hrb : (c == ']') = false) :
    parseValue (f+1) ('[' :: c :: r) =
      (match parseItems f (c :: r) with
       | some (vs, r3) => some (.vlist vs, r3)
       | none => none) := by
  have hdw : List.dropWhile isJsonWs (c :: r) = c :: r :=
    List.dropWhile_cons_of_neg (by simp [hws])
  simp only [parseValue, List.dropWhile_cons_of_neg (by decide : ¬ isJsonWs '[' = true), hdw]
  split
  · rename_i r2 heq
    rw [List.cons.injEq] at heq
    rw [heq.1] at hrb
    simp at hrb
  · rfl

theorem parseValue_num (f : Nat) {c : Char} {t r : List Char} {v : PyVal}
    (hc : c = '-' ∨ isDigitChar c = true)
    (hws : isJsonWs c = false)
    (hnum : parseJNum (c :: t) = some (v, r)) :
    parseValue (f+1) (c :: t) = some (v, r) := by
  have hlb : (c == lbrace) = false := by
    rcases hc with h | h
    · subst h; decide
    · simp only [isDigitChar, Bool.and_eq_true, decide_eq_true_eq] at h
      rw [beq_eq_false_iff_ne]
      intro he
      subst he
      revert h
      decide
  have hdw : List.dropWhile isJsonWs (c :: t) = c :: t :=
    List.dropWhile_cons_of_neg (by simp [hws])
  simp only [parseValue, hdw]
  split
  · rename_i heq
    rw [List.cons.injEq] at heq
    rcases hc with h | h <;> rcases heq with ⟨he, _⟩ <;> subst he <;> exact absurd h (by decide)
  · rename_i heq
    rw [List.cons.injEq] at heq
    rcases hc with h | h <;> rcases heq with ⟨he, _⟩ <;> subst he <;> exact absurd h (by decide)
  · rename_i heq
    rw [List.cons.injEq] at heq
    rcases hc with h | h <;> rcases heq with ⟨he, _⟩ <;> subst he <;> exact absurd h (by decide)
  · rename_i heq
    rw [List.cons.injEq] at heq
    rcases hc with h | h <;> rcases heq with ⟨he, _⟩ <;> subst he <;> exact absurd h (by decide)
  · rename_i heq
    rw [List.cons.injEq] at heq
    rcases hc with h | h <;> rcases heq with ⟨he, _⟩ <;> subst he <;> exact absurd h (by decide)
  · rename_i c2 r2 heq
    rw [List.cons.injEq] at heq
    rcases heq with ⟨he, ht⟩
    subst he
    subst ht
    rw [if_neg (by simp at hlb ⊢; exact hlb)]
    rw [if_pos]
    · exact hnum
    · rcases hc with h | h
      · subst h; simp
      · simp [h]
  · rename_i heq
    cases heq

theorem parseItems_step (f : Nat) (l : List Char) :
    parseItems (f+1) l =
      (match parseValue f l with
       | none => none
       | some (v, r) =>
           match r.dropWhile isJsonWs with
           | ',' :: r2 =>
               match parseItems f r2 with
               | some (vs, r3) => some (v :: vs, r3)
               | none => none
           | ']' :: r2 => some ([v], r2)
           | _ => none) := rfl

theorem parseEntries_step (f : Nat) (r : List Char) :
    parseEntries (f+1) ('"' :: r) =
      (match jStrBody (r.length + 1) r with
       | none => none
       | some (kcs, r1) =>
           match r1.dropWhile isJsonWs with
           | ':' :: r2 =>
               match parseValue f r2 with
               | none => none
               | some (v, r3) =>
                   match r3.dropWhile isJsonWs with
                   | ',' :: r4 =>
                       match parseEntries f r4 with
                       | some (ps, r5) => some ((String.mk kcs, v) :: ps, r5)
                       | none => none
                   | c :: r4 => if c == rbrace then some ([(String.mk kcs, v)], r4) else none
                   | [] => none
           | _ => none) := rfl

theorem parseEntries_entry (f : Nat) (k : String) (Z : List Char) :
    parseEntries (f+1) (strChars k ++ (':' :: ' ' :: Z)) =
      (match parseValue f (' ' :: Z) with
       | none => none
       | some (v, r3) =>
           match r3.dropWhile isJsonWs with
           | ',' :: r4 =>
               match parseEntries f r4 with
               | some (ps, r5) => some ((k, v) :: ps, r5)
               | none => none
           | c :: r4 => if c == rbrace then some ([(k, v)], r4) else none
           | [] => none) := by
  have hshape : strChars k ++ (':' :: ' ' :: Z) =
      '"' :: (k.toList.flatMap escChar ++ ('"' :: (':' :: ' ' :: Z))) := by
    simp [strChars]
  rw [hshape, parseEntries_step, jStrBody_escaped k.toList _ _
    (by have := flatMap_escChar_len k.toList; simp only [List.length_append]; omega)]
  rfl

theorem dictPut_fresh (acc : List (String × PyVal)) (k : String) (v : PyVal)
    (h : ∀ p ∈ acc, (p.1 == k) = false) : dictPut acc k v = acc ++ [(k, v)] := by
  induction acc with
  | nil => rfl
  | cons q rest ih =>
      obtain ⟨k0, v0⟩ := q
      have h0 := h (k0, v0) (by simp)
      simp only [dictPut, h0, Bool.false_eq_true, if_false]
      rw [ih (fun p hp => h p (by simp [hp]))]
      rfl

theorem buildDict_go (ps : List (String × PyVal)) : ∀ acc,
    noDupKeys ps = true → (∀ q ∈ ps, ∀ p ∈ acc, (p.1 == q.1) = false) →
    ps.foldl (fun a p => dictPut a p.1 p.2) acc = acc ++ ps := by
  induction ps with
  | nil =>
      intro acc _ _
      simp
  | cons q rest ih =>
      obtain ⟨k, v⟩ := q
      intro acc hnd hfresh
      simp only [noDupKeys, Bool.and_eq_true] at hnd
      have hfalse : rest.any (fun p => p.1 == k) = false := by
        have h3 := hnd.1
        cases hb : rest.any (fun p => p.1 == k)
        · rfl
        · rw [hb] at h3
          simp at h3
      simp only [List.foldl_cons]
      rw [dictPut_fresh acc k v (fun p hp => hfresh (k, v) (by simp) p hp)]
      rw [ih (acc ++ [(k, v)]) hnd.2 ?_]
      · simp
      · intro q' hq' p hp
        rcases List.mem_append.mp hp with h1 | h2
        · exact hfresh q' (by simp [hq']) p h1
        · rw [List.mem_singleton] at h2
          subst h2
          rw [beq_eq_false_iff_ne]
          intro he
          have htrue : rest.any (fun p => p.1 == k) = true := by
            rw [List.any_eq_true]
            exact ⟨q', hq', by rw [beq_iff_eq]; exact he.symm⟩
          rw [htrue] at hfalse
          simp at hfalse

theorem buildDict_noDup (ps : List (String × PyVal)) (h : noDupKeys ps = true) :
    buildDict ps = ps := by
  rw [buildDict, buildDict_go ps [] h (by intro q _ p hp; simp at hp)]
  simp

theorem parseValue_dictStep (f : Nat) (k : String) (Y : List Char) :
    parseValue (f+1) (lbrace :: (strChars k ++ Y)) =
      (match parseEntries f (strChars k ++ Y) with
       | some (ps, r3) => some (.vdict (buildDict ps), r3)
       | none => none) := by
  have hsh : strChars k ++ Y = '"' :: (k.toList.flatMap escChar ++ ('"' :: Y)) := by
    simp [strChars]
  rw [hsh]
  rfl

theorem dumpVal_vlist (xs : List PyVal) :
    dumpVal (.vlist xs) = '[' :: (dumpItems xs ++ [']']) := rfl

theorem dumpVal_vdict (ps : List (String × PyVal)) :
    dumpVal (.vdict ps) = lbrace :: (dumpEntries ps ++ [rbrace]) := rfl

mutual

theorem rt_val (v : PyVal) (fuel : Nat) (rest : List Char) (hcan : canonB v = true)
    (hrest : numStop rest = true) (hf : (dumpVal v).length < fuel) :
    parseValue fuel (dumpVal v ++ rest) = some (v, rest) := by
  cases v with
  | vnull =>
      cases fuel with
      | zero => exact absurd hf (Nat.not_lt_zero _)
      | succ f => rfl
  | vbool b =>
      cases fuel with
      | zero => exact absurd hf (Nat.not_lt_zero _)
      | succ f => cases b <;> rfl
  | vint n =>
      cases fuel with
      | zero => exact absurd hf (Nat.not_lt_zero _)
      | succ f =>
          obtain ⟨c, t, hct, hc⟩ := intChars_head n
          have hnum : parseJNum (c :: (t ++ rest)) = some (.vint n, rest) := by
            have h2 := parseJNum_intChars n rest hrest
            rw [hct] at h2
            simpa [List.cons_append] using h2
          have hshape : dumpVal (.vint n) ++ rest = c :: (t ++ rest) := by
            simp [dumpVal, hct]
          rw [hshape]
          exact parseValue_num f hc (minusOrDigit_classify hc).1 hnum
  | vfloat m e =>
      cases fuel with
      | zero => exact absurd hf (Nat.not_lt_zero _)
      | succ f =>
          have hfc : floatCanon m e = true := by simpa [canonB] using hcan
          obtain ⟨c, t, hct, hc⟩ := floatChars_head m e
          have hnum : parseJNum (c :: (t ++ rest)) = some (.vfloat m e, rest) := by
            have h2 := parseJNum_floatChars m e hfc rest hrest
            rw [hct] at h2
            simpa [List.cons_append] using h2
          have hshape : dumpVal (.vfloat m e) ++ rest = c :: (t ++ rest) := by
            simp [dumpVal, hct]
          rw [hshape]
          exact parseValue_num f hc (minusOrDigit_classify hc).1 hnum
  | vstr s =>
      cases fuel with
      | zero => exact absurd hf (Nat.not_lt_zero _)
      | succ f => exact parseValue_strChars f s rest
  | vlist xs =>
      have hcl : canonList xs = true := by simpa [canonB] using hcan
      cases fuel with
      | zero => exact absurd hf (Nat.not_lt_zero _)
      | succ f =>
          cases xs with
          | nil => rfl
          | cons x tl =>
              have hfl : (dumpItems (x :: tl)).length + 1 < f := by
                have h2 := hf
                simp only [dumpVal_vlist, List.length_cons, List.length_append,
                  List.length_singleton] at h2
                omega
              obtain ⟨c, t, hct, hws, _, hrb⟩ := dumpVal_head x
              obtain ⟨S, hS⟩ : ∃ S, dumpItems (x :: tl) ++ (']' :: rest) = c :: S := by
                cases tl with
                | nil => exact ⟨t ++ (']' :: rest), by simp [dumpItems, hct]⟩
                | cons y tl2 =>
                    exact ⟨(t ++ (',' :: ' ' :: dumpItems (y :: tl2))) ++ (']' :: rest),
                      by simp [dumpItems, hct]⟩
              have hshape : dumpVal (.vlist (x :: tl)) ++ rest = '[' :: (c :: S) := by
                rw [← hS]
                simp [dumpVal]
              rw [hshape, parseValue_listStep f S hws hrb, ← hS,
                rt_items (x :: tl) f rest hcl (by simp) hfl]
  | vdict ps =>
      have hnd : noDupKeys ps = true ∧ canonEntries ps = true := by
        simpa [canonB] using hcan
      cases fuel with
      | zero => exact absurd hf (Nat.not_lt_zero _)
      | succ f =>
          cases ps with
          | nil => rfl
          | cons p tl =>
              obtain ⟨k, v⟩ := p
              have hfl : (dumpEntries ((k, v) :: tl)).length + 1 < f := by
                have h2 := hf
                simp only [dumpVal_vdict, List.length_cons, List.length_append,
                  List.length_singleton] at h2
                omega
              have hsh : dumpVal (.vdict ((k, v) :: tl)) ++ rest =
                  lbrace :: (dumpEntries ((k, v) :: tl) ++ (rbrace :: rest)) := by
                simp [dumpVal]
              obtain ⟨W, hW⟩ : ∃ W, dumpEntries ((k, v) :: tl) ++ (rbrace :: rest) =
                  strChars k ++ (':' :: ' ' :: W) := by
                cases tl with
                | nil => exact ⟨dumpVal v ++ (rbrace :: rest), by simp [dumpEntries]⟩
                | cons e tl2 =>
                    exact ⟨dumpVal v ++ (',' :: ' ' ::
                      (dumpEntries (e :: tl2) ++ (rbrace :: rest))), by simp [dumpEntries]⟩
              rw [hsh, hW, parseValue_dictStep f k _, ← hW,
                rt_entries ((k, v) :: tl) f rest hnd.2 (by simp) hfl]
              show some (PyVal.vdict (buildDict ((k, v) :: tl)), rest) =
                some (PyVal.vdict ((k, v) :: tl), rest)
              rw [buildDict_noDup _ hnd.1]

theorem rt_items (xs : List PyVal) (fuel : Nat) (rest : List Char)
    (hcan : canonList xs = true) (hne : xs ≠ [])
    (hf : (dumpItems xs).length + 1 < fuel) :
    parseItems fuel (dumpItems xs ++ (']' :: rest)) = some (xs, rest) := by
  cases xs with
  | nil => exact absurd rfl hne
  | cons x tl =>
      have hcx : canonB x = true ∧ canonList tl = true := by simpa [canonList] using hcan
      cases fuel with
      | zero => exact absurd hf (Nat.not_lt_zero _)
      | succ f =>
          rw [parseItems_step]
          cases tl with
          | nil =>
              have hfx : (dumpVal x).length < f := by
                have h2 := hf
                simp only [dumpItems] at h2
                omega
              have hsh : dumpItems [x] ++ (']' :: rest) = dumpVal x ++ (']' :: rest) := by
                simp [dumpItems]
              rw [hsh, rt_val x f (']' :: rest) hcx.1 rfl hfx]
              rfl
          | cons y tl2 =>
              have hlen : (dumpVal x).length < f ∧
                  (dumpItems (y :: tl2)).length + 1 < f := by
                have h2 := hf
                simp only [dumpItems, List.length_append, List.length_cons] at h2
                constructor <;> omega
              have hsh : dumpItems (x :: y :: tl2) ++ (']' :: rest) =
                  dumpVal x ++ (',' :: ' ' :: (dumpItems (y :: tl2) ++ (']' :: rest))) := by
                simp [dumpItems]
              rw [hsh, rt_val x f (',' :: ' ' :: (dumpItems (y :: tl2) ++ (']' :: rest)))
                hcx.1 rfl hlen.1]
              show (match parseItems f (' ' :: (dumpItems (y :: tl2) ++ (']' :: rest))) with
                   | some (vs, r3) => some (x :: vs, r3)
                   | none => none) = some (x :: y :: tl2, rest)
              rw [parseItems_ws f (by decide) _,
                rt_items (y :: tl2) f rest hcx.2 (by simp) hlen.2]

theorem rt_entries (ps : List (String × PyVal)) (fuel : Nat) (rest : List Char)
    (hcan : canonEntries ps = true) (hne : ps ≠ [])
    (hf : (dumpEntries ps).length + 1 < fuel) :
    parseEntries fuel (dumpEntries ps ++ (rbrace :: rest)) = some (ps, rest) := by
  cases ps with
  | nil => exact absurd rfl hne
  | cons p tl =>
      obtain ⟨k, v⟩ := p
      have hcv : canonB v = true ∧ canonEntries tl = true := by
        simpa [canonEntries] using hcan
      cases fuel with
      | zero => exact absurd hf (Nat.not_lt_zero _)
      | succ f =>
          cases tl with
          | nil =>
              have hfv : (dumpVal v).length < f := by
                have h2 := hf
                simp only [dumpEntries, List.length_append, List.length_cons] at h2
                omega
              have hsh : dumpEntries [(k, v)] ++ (rbrace :: rest) =
                  strChars k ++ (':' :: ' ' :: (dumpVal v ++ (rbrace :: rest))) := by
                simp [dumpEntries]
              rw [hsh, parseEntries_entry f k _,
                parseValue_ws f (by decide) _,
                rt_val v f (rbrace :: rest) hcv.1 rfl hfv]
              rfl
          | cons e tl2 =>
              have hlen : (dumpVal v).length < f ∧
                  (dumpEntries (e :: tl2)).length + 1 < f := by
                have h2 := hf
                simp only [dumpEntries, List.length_append, List.length_cons] at h2
                constructor <;> omega
              have hsh : dumpEntries ((k, v) :: e :: tl2) ++ (rbrace :: rest) =
                  strChars k ++ (':' :: ' ' :: (dumpVal v ++
                    (',' :: ' ' :: (dumpEntries (e :: tl2) ++ (rbrace :: rest))))) := by
                simp [dumpEntries]
              rw [hsh, parseEntries_entry f k _,
                parseValue_ws f (by decide) _,
                rt_val v f (',' :: ' ' :: (dumpEntries (e :: tl2) ++ (rbrace :: rest)))
                  hcv.1 rfl hlen.1]
              show (match parseEntries f (' ' :: (dumpEntries (e :: tl2) ++
                      (rbrace :: rest))) with
                   | some (ps2, r5) => some ((k, v) :: ps2, r5)
                   | none => none) = some ((k, v) :: e :: tl2, rest)
              rw [parseEntries_ws f (by decide) _,
                rt_entries (e :: tl2) f rest hcv.2 (by simp) hlen.2]

end

theorem json_loads_dumps (v : PyVal) (hc : canonB v = true) :
    json_loads (dumpVal v) = some v := by
  have h := rt_val v ((dumpVal v).length + 1) [] hc rfl (by omega)
  rw [List.append_nil] at h
  simp only [json_loads, h]
  rfl

theorem normalize_dumps (v : PyVal) (hcan : canonB v = true)
    (hns : ∀ s, v = .vstr s → pyStripL s.toList = s.toList ∧
      json_loads s.toList = none ∧ coerceNum s.toList = none) :
    normalize_gpt_response (json_dumps v) = v := by
  have hload := json_loads_dumps v hcan
  obtain ⟨c, t, hct, _⟩ := dumpVal_head v
  have hstep : normalize_gpt_response (json_dumps v) =
      (unwrapLoop ((dumpVal v).length + 1) (dumpVal v)).getD
        (.vstr (String.mk (dumpVal v))) := by
    simp only [normalize_gpt_response]
    rw [show (json_dumps v).toList = dumpVal v from rfl, pyStripL_dumpVal]
  rw [hstep]
  have hfuel : (dumpVal v).length + 1 = t.length + 1 + 1 := by
    rw [hct]
    simp
  rw [hfuel]
  have hunf : unwrapLoop (t.length + 1 + 1) (dumpVal v) =
      (match json_loads (dumpVal v) with
       | some (.vstr s) => unwrapLoop (t.length + 1) (pyStripL s.toList)
       | some w => some w
       | none => some (numericTier (dumpVal v))) := rfl
  rw [hunf, hload]
  cases v with
  | vstr s =>
      show (unwrapLoop (t.length + 1) (pyStripL s.toList)).getD
        (.vstr (String.mk (dumpVal (.vstr s)))) = .vstr s
      rw [(hns s rfl).1]
      rw [show unwrapLoop (t.length + 1) s.toList =
          (match json_loads s.toList with
           | some (.vstr s2) => unwrapLoop t.length (pyStripL s2.toList)
           | some w => some w
           | none => some (numericTier s.toList)) from rfl]
      rw [(hns s rfl).2.1]
      show numericTier s.toList = .vstr s
      simp only [numericTier, (hns s rfl).2.2]
      rfl
  | vnull => rfl
  | vbool b => cases b <;> rfl
  | vint n => rfl
  | vfloat m e => rfl
  | vlist xs => rfl
  | vdict ps => rfl

/-- C2 counterexample: the canonical value consisting of the string with literal
leading and trailing spaces.  It is not itself JSON, is not numeric-looking (both
int() and float() reject it), yet normalize(json.dumps v) strips the unwrapped
string (line 239 of GPT.py) and returns the trimmed string, not v: the claimed
round trip fails for a string the claim's exception clause does not cover. -/
theorem claim_C2_counterexample :
    canonB (.vstr "  hi  ") = true ∧
    json_loads "  hi  ".toList = none ∧
    coerceNum "  hi  ".toList = none ∧
    json_dumps (.vstr "  hi  ") = "\"  hi  \"" ∧
    normalize_gpt_response (json_dumps (.vstr "  hi  ")) = .vstr "hi" :=
  ⟨rfl, rfl, rfl, rfl, rfl⟩

/-- C2 amended: the round trip normalize(json.dumps v) = v holds for every
canonical value v (floats canonical, dict keys distinct) whose top-level value,
when it is a string, is trim-invariant, not itself parseable JSON, and not
numerically coercible; and the claim's concrete cases hold as stated, with 3.14
the exact decimal 314 x 10 ^ -2. -/
theorem claim_C2_roundtrip_amended (v : PyVal) (hcan : canonB v = true)
    (hstr : ∀ s, v = .vstr s → pyStripL s.toList = s.toList ∧
      json_loads s.toList = none ∧ coerceNum s.toList = none) :
    normalize_gpt_response (json_dumps v) = v ∧
    normalize_gpt_response "3.14" = .vfloat 314 (-2) ∧
    normalize_gpt_response "7" = .vint 7 ∧
    normalize_gpt_response "hello world" = .vstr "hello world" ∧
    normalize_gpt_response "\"42\"" = .vint 42 :=
  ⟨normalize_dumps v hcan hstr, rfl, rfl, rfl, rfl⟩

theorem claim_C2_witness :
    normalize_gpt_response (json_dumps (.vdict [("a", .vint 1)])) =
      .vdict [("a", .vint 1)] ∧
    normalize_gpt_response "3.14" = .vfloat 314 (-2) ∧
    normalize_gpt_response "7" = .vint 7 ∧
    normalize_gpt_response "hello world" = .vstr "hello world" ∧
    normalize_gpt_response "\"42\"" = .vint 42 :=
  claim_C2_roundtrip_amended (.vdict [("a", .vint 1)]) (by decide)
    (fun s h => PyVal.noConfusion h)


end GPTConn
